import Mathlib

/-!
Verification of the workflow execution engine of the llm-suite repository
(src/multi-agent/src/lib/workflow/execution-engine.ts and the provider
layer in src/multi-agent/src/lib/llm).  Strings are modelled as lists of
characters, JavaScript numbers used for costs are modelled as exact
rationals, and the outbound provider call (a network request) is modelled
as an oracle supplied in an environment record.
-/

namespace LlmSuite

/-- Character-list model of JavaScript strings. -/
abbrev Str := List Char

/-! ## Generic string helpers -/

/-- Fuel-indexed worker for global pattern replacement.  One unit of fuel is
spent per step; with fuel at least the length of the subject the recursion
never exhausts (each step consumes at least one character when the pattern
is nonempty). -/
def replaceAllAux (pat rep : Str) : Nat → Str → Str
  | 0, s => s
  | Nat.succ fuel, s =>
    match s with
    | [] => []
    | c :: rest =>
      if pat.isPrefixOf (c :: rest) then
        rep ++ replaceAllAux pat rep fuel ((c :: rest).drop pat.length)
      else
        c :: replaceAllAux pat rep fuel rest

/-- Global, non-overlapping, left-to-right replacement of every occurrence of
`pat` by `rep`.  The source line is `template.replace(new RegExp(escaped
braces around the raw key, g), String(value))`, whose faithful model is
`jsReplaceBraced` below; `replaceAll` is its restriction to keys without
regex metacharacters and dollar-free values (`jsReplaceBraced_literal`),
which covers every instantiation the concrete scenarios of this
development exercise.  The replacement text is not rescanned within one
pass, as in JavaScript. -/
def replaceAll (s pat rep : Str) : Str :=
  if pat.isEmpty then s else replaceAllAux pat rep s.length s

/-- Decides whether `pat` occurs as a contiguous substring of `s`. -/
def occursIn (pat : Str) : Str → Bool
  | [] => pat.isEmpty
  | c :: rest => pat.isPrefixOf (c :: rest) || occursIn pat rest

/-- Whitespace recognizer used by trimming (the characters JavaScript trim
removes that can appear in model output). -/
def isWS (c : Char) : Bool :=
  c = ' ' || c = '\t' || c = '\n' || c = '\r'

/-- Model of JavaScript String.prototype.trim. -/
def trimStr (s : Str) : Str :=
  ((s.dropWhile isWS).reverse.dropWhile isWS).reverse

/-- Inner text before the first occurrence of `pat`, or none when `pat`
does not occur. -/
def takeUntilPat (pat : Str) : Str → Option Str
  | [] => none
  | c :: rest =>
    if pat.isPrefixOf (c :: rest) then some []
    else (takeUntilPat pat rest).map (fun t => c :: t)

/-- Model of the first lazy regex match openT([\s\S]*?)closeT: the inner text
between the first occurrence of the opening tag and the first occurrence of
the closing tag after it.  For the engine's tags an opening occurrence with
no closing tag after it means no occurrence at all can match, so none is
returned in that case, exactly as the regex does. -/
def extractTagged (openT closeT : Str) : Str → Option Str
  | [] => none
  | c :: rest =>
    if openT.isPrefixOf (c :: rest) then
      takeUntilPat closeT ((c :: rest).drop openT.length)
    else
      extractTagged openT closeT rest

/-! ## Insertion-ordered string maps

JavaScript objects and Maps enumerate keys in insertion order, and writing
an existing key updates the value in place without moving the key.  Both the
execution context (a Map) and the template-variable record behave this way. -/

/-- Set `k` to `v`, updating in place when `k` is present, appending otherwise. -/
def mapSet (m : List (Str × Str)) (k v : Str) : List (Str × Str) :=
  match m with
  | [] => [(k, v)]
  | (k', v') :: rest => if k' = k then (k, v) :: rest else (k', v') :: mapSet rest k v

/-- Key lookup (first match). -/
def lookupStr (m : List (Str × Str)) (k : Str) : Option Str :=
  match m with
  | [] => none
  | (k', v') :: rest => if k' = k then some v' else lookupStr rest k

/-! ## Data model (src/types, part_002) -/

/-- One node of a workflow; `data` fields that the engine reads are inlined. -/
structure WorkflowNode where
  id : Str
  type : Str
  provider : Option Str
  model : Option Str
  prompt : Option Str
  label : Option Str
deriving DecidableEq, Repr

/-- A directed edge between two node ids. -/
structure WorkflowEdge where
  source : Str
  target : Str
deriving DecidableEq, Repr

/-- A workflow graph. -/
structure Workflow where
  id : Str
  nodes : List WorkflowNode
  edges : List WorkflowEdge
deriving DecidableEq, Repr

inductive StepStatus where
  | running | completed | failed
deriving DecidableEq, Repr

/-- Per-LLM-node execution record (wall-clock duration omitted: real time is
outside the model). -/
structure ExecutionStep where
  nodeId : Str
  provider : Str
  model : Str
  input : Str
  output : Option Str
  cost : Rat
  status : StepStatus
  error : Option Str
deriving DecidableEq, Repr

/-- One entry of the nodeDebug trail. -/
structure DebugEntry where
  id : Str
  label : Str
  prompt : Str
  output : Str
  recommendations : Option Str
  reasoning : Option Str
deriving DecidableEq, Repr

inductive ExecStatus where
  | running | completed | failed
deriving DecidableEq, Repr

/-- The execution record returned by executeWorkflow (random id and
timestamps omitted: they are outside the model). -/
structure WorkflowExecution where
  workflowId : Str
  userId : Str
  inputPrompt : Str
  outputResult : Option Str
  totalCost : Rat
  status : ExecStatus
  error : Option Str
  nodeDebug : Option (List DebugEntry)
deriving DecidableEq, Repr

/-- Provider response as the engine consumes it (content and cost). -/
structure LLMResponse where
  content : Str
  cost : Rat
deriving DecidableEq, Repr

/-- The outbound provider call, abstracted: provider id, model id and the
processed prompt determine either an error message (a raised exception) or a
response.  The remaining config fields (temperature, maxTokens, ...) are
forwarded verbatim by the engine and do not influence any claim. -/
structure Env where
  execute : Str → Str → Str → Except Str LLMResponse

/-! ## Provider registration (provider-factory, part_005)

registerProvider stores a configured provider instance per id and throws for
the unimplemented or unknown provider types; getProvider throws when the id
was never registered.  The registry contents relevant to the engine are the
set of registered ids. -/

/-- Registers every id of providerConfigs in order; the first unsupported id
raises, aborting registration, exactly as the factory's switch does. -/
def registerAll : List Str → Except Str (List Str)
  | [] => .ok []
  | p :: rest =>
    if p = "openai".data ∨ p = "anthropic".data then
      (registerAll rest).map (fun r => p :: r)
    else if p = "google".data then
      .error ("Google Gemini provider not yet implemented".data)
    else if p = "deepseek".data then
      .error ("DeepSeek provider not yet implemented".data)
    else
      .error ("Unsupported provider type: ".data ++ p)

/-! ## Template machinery (execution-engine.ts lines 230-276) -/

def bEditsOpen : Str := "<B_Edits>".data
def bEditsClose : Str := "</B_Edits>".data
def bReasoningOpen : Str := "<B_Reasoning>".data
def bReasoningClose : Str := "</B_Reasoning>".data

/-- One iteration of the buildTemplateVariables loop: the entry itself, then
the synthetic `_edits` and `_reasoning` entries when the tagged spans occur
in its value.  Context values are always strings in the engine, so the
source's typeof guard always passes. -/
def addContextEntry (vars : List (Str × Str)) (entry : Str × Str) :
    List (Str × Str) :=
  let vars := mapSet vars entry.1 entry.2
  let vars :=
    match extractTagged bEditsOpen bEditsClose entry.2 with
    | some e => mapSet vars (entry.1 ++ "_edits".data) (trimStr e)
    | none => vars
  match extractTagged bReasoningOpen bReasoningClose entry.2 with
  | some r => mapSet vars (entry.1 ++ "_reasoning".data) (trimStr r)
  | none => vars

/-- buildTemplateVariables: `input` bound to the function's input argument,
then one group of entries per context entry in insertion order. -/
def buildTemplateVariables (input : Str) (context : List (Str × Str)) :
    List (Str × Str) :=
  context.foldl addContextEntry [("input".data, input)]

/-- processPromptTemplate restricted to regex-literal keys and dollar-free
values: in insertion order, globally replace each `\x7b` ++ key ++ `\x7d`
by the entry's value.  The source builds the pattern with new RegExp on
the RAW key, so for keys holding metacharacters the loop is not literal
replacement; `processPromptTemplateRegex` below is the faithful model,
and `processPromptTemplateRegex_literal` proves this definition is its
restriction. -/
def processPromptTemplate (template : Str) (vars : List (Str × Str)) : Str :=
  vars.foldl
    (fun processed entry => replaceAll processed ('{' :: entry.1 ++ ['}']) entry.2)
    template

/-! ## executeLLMNode (execution-engine.ts lines 162-228) -/

/-- The unregistered-provider message thrown by getProvider, with the raw
node.data.provider value interpolated (the string undefined when absent). -/
def notRegisteredMsg (p : Option Str) : Str :=
  "Provider ".data ++ (p.getD "undefined".data) ++
    " not registered. Please configure API key first.".data

/-- executeLLMNode.  The provider lookup happens before template processing,
so on an unregistered provider the step keeps the raw input; any error of
the provider call is caught and recorded on the step, which is returned
normally in every case (the function never propagates a failure). -/
def executeLLMNode (env : Env) (registered : List Str) (node : WorkflowNode)
    (input : Str) (context : List (Str × Str)) : ExecutionStep :=
  let base : ExecutionStep :=
    { nodeId := node.id
      provider := node.provider.getD "openai".data
      model := node.model.getD "gpt-4o-mini".data
      input := input
      output := none
      cost := 0
      status := .running
      error := none }
  match node.provider with
  | none =>
    { base with status := .failed, error := some (notRegisteredMsg none) }
  | some p =>
    if p ∈ registered then
      let tmplVars := buildTemplateVariables input context
      let processedPrompt :=
        processPromptTemplate (node.prompt.getD ('{' :: "input".data ++ ['}'])) tmplVars
      match env.execute p base.model processedPrompt with
      | .error e =>
        { base with input := processedPrompt, status := .failed, error := some e }
      | .ok response =>
        { base with
            input := processedPrompt
            output := some response.content
            cost := response.cost
            status := .completed }
    else
      { base with status := .failed, error := some (notRegisteredMsg (some p)) }

/-! ## executeFromNode (execution-engine.ts lines 100-160) -/

/-- The running-text update after an LLM step: step.output || currentOutput,
where both undefined and the empty string are falsy. -/
def chainOutput (stepOutput : Option Str) (currentOutput : Str) : Str :=
  match stepOutput with
  | some o => if o = [] then currentOutput else o
  | none => currentOutput

/-- Result of one walk: final output, accumulated cost and the step list. -/
structure WalkResult where
  output : Str
  totalCost : Rat
  steps : List ExecutionStep
deriving DecidableEq, Repr

/-- executeFromNode.  The source recursion is unbounded and diverges on a
cyclic chain; fuel exhaustion models that divergence as a distinguished
error.  The context Map is mutated in place in the source and is threaded
explicitly here. -/
def executeFromNode (env : Env) (registered : List Str)
    (nodes : List WorkflowNode) (edges : List WorkflowEdge) :
    Nat → WorkflowNode → Str → List (Str × Str) →
    Except Str (WalkResult × List (Str × Str))
  | 0, _, _, _ => .error ("Maximum call stack size exceeded".data)
  | Nat.succ fuel, currentNode, input, context =>
    let context := mapSet context currentNode.id input
    let processed :
        List ExecutionStep × Rat × Str × List (Str × Str) :=
      if currentNode.type = "llm".data then
        let step := executeLLMNode env registered currentNode input context
        let out := chainOutput step.output input
        ([step], step.cost, out, mapSet context currentNode.id out)
      else
        ([], 0, input, context)
    match processed with
    | (steps, totalCost, currentOutput, context) =>
      match edges.filter (fun e => e.source = currentNode.id) with
      | [] => .ok (⟨currentOutput, totalCost, steps⟩, context)
      | nextEdge :: _ =>
        match nodes.find? (fun n => n.id = nextEdge.target) with
        | none =>
          .error ("Next node ".data ++ nextEdge.target ++ " not found".data)
        | some nextNode =>
          if nextNode.type = "output".data then
            .ok (⟨currentOutput, totalCost, steps⟩, context)
          else
            match executeFromNode env registered nodes edges fuel nextNode
                currentOutput context with
            | .error e => .error e
            | .ok (r, context') =>
              .ok (⟨r.output, totalCost + r.totalCost, steps ++ r.steps⟩, context')

/-! ## nodeDebug construction (execution-engine.ts lines 64-88) -/

/-- One debug entry for a step: label falls back to the node id when the node
is missing or its label is falsy, and tag extraction runs only on a truthy
(present and nonempty) output. -/
def mkDebugEntry (nodes : List WorkflowNode) (step : ExecutionStep) : DebugEntry :=
  let node := nodes.find? (fun n => n.id = step.nodeId)
  let label :=
    match node with
    | some n =>
      match n.label with
      | some l => if l = [] then step.nodeId else l
      | none => step.nodeId
    | none => step.nodeId
  let tags :
      Option Str × Option Str :=
    match step.output with
    | some o =>
      if o = [] then (none, none)
      else
        ((extractTagged bEditsOpen bEditsClose o).map trimStr,
         (extractTagged bReasoningOpen bReasoningClose o).map trimStr)
    | none => (none, none)
  { id := step.nodeId
    label := label
    prompt := step.input
    output := step.output.getD []
    recommendations := tags.1
    reasoning := tags.2 }

/-! ## executeWorkflow (execution-engine.ts lines 13-98) -/

/-- The walk fuel used by the model; the source recursion is unbounded, and
any terminating source run takes at most this many frames, because a longer
run revisits a node and then never terminates. -/
def walkFuel (wf : Workflow) : Nat :=
  wf.nodes.length + wf.edges.length + 1

/-- executeWorkflow.  Returns the execution record alongside the internal
step trace of the walk (the trace is engine-internal in the source; the
record's nodeDebug is derived from it).  All raised errors are caught and
turn the record to failed with the message; no error escapes. -/
def executeWorkflow (env : Env) (wf : Workflow) (inputPrompt : Str)
    (userId : Str) (providerConfigs : List Str) :
    WorkflowExecution × List ExecutionStep :=
  let base : WorkflowExecution :=
    { workflowId := wf.id
      userId := userId
      inputPrompt := inputPrompt
      outputResult := none
      totalCost := 0
      status := .running
      error := none
      nodeDebug := none }
  match registerAll providerConfigs with
  | .error e => ({ base with status := .failed, error := some e }, [])
  | .ok registered =>
    match wf.nodes.find? (fun n => n.type = "input".data) with
    | none =>
      ({ base with
          status := .failed
          error := some ("Workflow must have an input node".data) }, [])
    | some inputNode =>
      match executeFromNode env registered wf.nodes wf.edges (walkFuel wf)
          inputNode inputPrompt [] with
      | .error e => ({ base with status := .failed, error := some e }, [])
      | .ok (result, _) =>
        ({ base with
            outputResult := some result.output
            totalCost := result.totalCost
            status := .completed
            nodeDebug := some (result.steps.map (mkDebugEntry wf.nodes)) },
         result.steps)

/-! ## Workflow validation (execution-engine.ts lines 278-355) -/

/-- hasCycleUtil with explicit visited and recursion-stack state and a fuel
bound on recursion depth (the source recursion depth is bounded by the
number of distinct ids, proven below, so adequate fuel never exhausts).
Returns the flag together with the updated visited and recursion stack. -/
def hasCycleUtil (edges : List WorkflowEdge) :
    Nat → Str → List Str → List Str → Bool × List Str × List Str
  | 0, _, visited, recStack => (false, visited, recStack)
  | Nat.succ fuel, nodeId, visited, recStack =>
    if nodeId ∈ recStack then (true, visited, recStack)
    else if nodeId ∈ visited then (false, visited, recStack)
    else
      let start : Bool × List Str × List Str :=
        (false, nodeId :: visited, nodeId :: recStack)
      let res :=
        (edges.filter (fun e => e.source = nodeId)).foldl
          (fun acc e =>
            match acc with
            | (true, v, r) => (true, v, r)
            | (false, v, r) => hasCycleUtil edges fuel e.target v r)
          start
      match res with
      | (true, v, r) => (true, v, r)
      | (false, v, r) => (false, v, r.erase nodeId)

/-- hasCycles: depth-first search run from every node, with visited state
shared across the outer loop, as in the source. -/
def hasCycles (nodes : List WorkflowNode) (edges : List WorkflowEdge) : Bool :=
  (nodes.foldl
    (fun acc n =>
      match acc with
      | (true, v, r) => (true, v, r)
      | (false, v, r) =>
        hasCycleUtil edges (nodes.length + edges.length + 1) n.id v r)
    (false, ([] : List Str), ([] : List Str))).1

def errNoInput : Str := "Workflow must have at least one input node".data
def errManyInput : Str := "Workflow can only have one input node".data
def errNoOutput : Str := "Workflow must have at least one output node".data
def errCycles : Str := "Workflow contains cycles".data

/-- Comma-space join of node ids, as Array.prototype.join(", ") produces. -/
def joinIds : List Str → Str
  | [] => []
  | [x] => x
  | x :: y :: rest => x ++ ", ".data ++ joinIds (y :: rest)

/-- The node-id set mentioned by some edge. -/
def connectedIds (edges : List WorkflowEdge) : List Str :=
  edges.foldl (fun acc e => acc ++ [e.source, e.target]) []

/-- The nodes the source's filter collects: unconnected ones, and only when
the workflow has more than one node (the size guard sits inside the filter
predicate in the source). -/
def disconnectedNodes (wf : Workflow) : List WorkflowNode :=
  wf.nodes.filter
    (fun n => ¬ (n.id ∈ connectedIds wf.edges) ∧ wf.nodes.length > 1)

def errDisconnected (wf : Workflow) : Str :=
  "Disconnected nodes found: ".data ++ joinIds ((disconnectedNodes wf).map (·.id))

/-- Validation outcome. -/
structure ValidationResult where
  isValid : Bool
  errors : List Str
deriving DecidableEq, Repr

/-- validateWorkflow: the four checks run independently and their messages
are accumulated in order. -/
def validateWorkflow (wf : Workflow) : ValidationResult :=
  let inputNodes := wf.nodes.filter (fun n => n.type = "input".data)
  let outputNodes := wf.nodes.filter (fun n => n.type = "output".data)
  let errors : List Str :=
    (if inputNodes.length = 0 then [errNoInput]
     else if inputNodes.length > 1 then [errManyInput]
     else []) ++
    (if outputNodes.length = 0 then [errNoOutput] else []) ++
    (if (disconnectedNodes wf).length > 0 then [errDisconnected wf] else []) ++
    (if hasCycles wf.nodes wf.edges then [errCycles] else [])
  { isValid := errors.isEmpty, errors := errors }

/-! ## Provider cost tables (providers/openai.ts lines 93-109, part_006
lines 101-116) -/

/-- A per-model price pair, per 1K tokens. -/
structure ModelPricing where
  inputPrice : Rat
  outputPrice : Rat
deriving DecidableEq, Repr

/-- Price lookup in an association table. -/
def priceLookup (table : List (Str × ModelPricing)) (model : Str) :
    Option ModelPricing :=
  match table with
  | [] => none
  | (k, p) :: rest => if k = model then some p else priceLookup rest model

namespace OpenAIProvider

/-- OpenAI pricing per 1K tokens, as in the source table. -/
def pricing : List (Str × ModelPricing) :=
  [("gpt-4o".data, ⟨5/1000, 15/1000⟩),
   ("gpt-4o-mini".data, ⟨15/100000, 6/10000⟩),
   ("gpt-4-turbo".data, ⟨10/1000, 30/1000⟩),
   ("gpt-4-turbo-preview".data, ⟨10/1000, 30/1000⟩),
   ("gpt-3.5-turbo".data, ⟨15/10000, 2/1000⟩),
   ("gpt-3.5-turbo-16k".data, ⟨3/1000, 4/1000⟩)]

/-- calculateCost: table lookup with the gpt-3.5-turbo entry as fallback
(the zero pair is unreachable because that key is in the table). -/
def calculateCost (model : Str) (promptTokens completionTokens : Rat) : Rat :=
  let p :=
    match priceLookup pricing model with
    | some p => p
    | none =>
      match priceLookup pricing ("gpt-3.5-turbo".data) with
      | some p => p
      | none => ⟨0, 0⟩
  promptTokens / 1000 * p.inputPrice + completionTokens / 1000 * p.outputPrice

end OpenAIProvider

namespace AnthropicProvider

/-- Anthropic pricing per 1K tokens, as in the source table. -/
def pricing : List (Str × ModelPricing) :=
  [("claude-3-5-sonnet-20241022".data, ⟨3/1000, 15/1000⟩),
   ("claude-3-5-haiku-20241022".data, ⟨25/100000, 125/100000⟩),
   ("claude-3-opus-20240229".data, ⟨15/1000, 75/1000⟩),
   ("claude-3-sonnet-20240229".data, ⟨3/1000, 15/1000⟩),
   ("claude-3-haiku-20240307".data, ⟨25/100000, 125/100000⟩)]

/-- calculateCost: table lookup with the claude-3-haiku-20240307 entry as
fallback (the zero pair is unreachable because that key is in the table). -/
def calculateCost (model : Str) (inputTokens outputTokens : Rat) : Rat :=
  let p :=
    match priceLookup pricing model with
    | some p => p
    | none =>
      match priceLookup pricing ("claude-3-haiku-20240307".data) with
      | some p => p
      | none => ⟨0, 0⟩
  inputTokens / 1000 * p.inputPrice + outputTokens / 1000 * p.outputPrice

end AnthropicProvider

/-! ## Concrete scenarios used to instantiate the theorems -/

/-- A stub provider that answers R: followed by the prompt, at cost 0.001. -/
def echoEnv : Env := ⟨fun _ _ prompt => .ok ⟨"R:".data ++ prompt, 1/1000⟩⟩

def inNode : WorkflowNode := ⟨"in".data, "input".data, none, none, none, none⟩

def outNode : WorkflowNode := ⟨"out".data, "output".data, none, none, none, none⟩

/-- An llm node with template `\x7binput\x7d`. -/
def mkLLMNode (id provider model : Str) : WorkflowNode :=
  ⟨id, "llm".data, some provider, some model,
   some ('{' :: "input".data ++ ['}']), none⟩

def llm1 : WorkflowNode := mkLLMNode "llm-1".data "openai".data "m1".data

def llm2 : WorkflowNode := mkLLMNode "llm-2".data "openai".data "m2".data

def llm3 : WorkflowNode := mkLLMNode "llm-3".data "openai".data "m3".data

/-- input → llm-1 → llm-2 → output. -/
def wfChain2 : Workflow :=
  ⟨"w".data, [inNode, llm1, llm2, outNode],
   [⟨"in".data, "llm-1".data⟩, ⟨"llm-1".data, "llm-2".data⟩,
    ⟨"llm-2".data, "out".data⟩]⟩

/-- input → llm-1 → llm-2 → llm-3 → output. -/
def wfChain3 : Workflow :=
  ⟨"w".data, [inNode, llm1, llm2, llm3, outNode],
   [⟨"in".data, "llm-1".data⟩, ⟨"llm-1".data, "llm-2".data⟩,
    ⟨"llm-2".data, "llm-3".data⟩, ⟨"llm-3".data, "out".data⟩]⟩

/-- A stub provider with per-model costs 0.001, 0.002, 0.003. -/
def costEnv : Env :=
  ⟨fun _ model prompt =>
    if model = "m1".data then .ok ⟨'x' :: prompt, 1/1000⟩
    else if model = "m2".data then .ok ⟨'x' :: prompt, 2/1000⟩
    else .ok ⟨'x' :: prompt, 3/1000⟩⟩

/-- A stub provider whose model m1 answers the empty string and whose other
models echo with an R: marker. -/
def emptyThenEchoEnv : Env :=
  ⟨fun _ model prompt =>
    if model = "m1".data then .ok ⟨[], 1/1000⟩
    else .ok ⟨"R:".data ++ prompt, 2/1000⟩⟩

/-- A stub provider whose model m1 raises (as the source providers do on a
non-success upstream status or transport failure) and whose other models
echo with an R: marker. -/
def raiseEnv : Env :=
  ⟨fun _ model prompt =>
    if model = "m1".data then
      .error ("OpenAI execution failed: boom".data)
    else .ok ⟨"R:".data ++ prompt, 2/1000⟩⟩

/-- An llm node referencing the anthropic provider. -/
def llmAnth : WorkflowNode :=
  ⟨"llm-a".data, "llm".data, some "anthropic".data, none, none, none⟩

/-- input → llm-a(anthropic) → output. -/
def wfAnth : Workflow :=
  ⟨"w".data, [inNode, llmAnth, outNode],
   [⟨"in".data, "llm-a".data⟩, ⟨"llm-a".data, "out".data⟩]⟩

/-- input → llm-a(anthropic) → llm-b(openai) → output: a chain whose first
llm node fails and whose second is healthy. -/
def llmB : WorkflowNode := mkLLMNode "llm-b".data "openai".data "m2".data

def wfAnthThenB : Workflow :=
  ⟨"w".data, [inNode, llmAnth, llmB, outNode],
   [⟨"in".data, "llm-a".data⟩, ⟨"llm-a".data, "llm-b".data⟩,
    ⟨"llm-b".data, "out".data⟩]⟩

/-- Three bare nodes for the cycle scenarios. -/
def bareNode (id : Str) : WorkflowNode := ⟨id, "llm".data, none, none, none, none⟩

/-- A → B → A plus a disconnected acyclic C. -/
def cycleNodes : List WorkflowNode :=
  [bareNode "A".data, bareNode "B".data, bareNode "C".data]

def cycleEdges : List WorkflowEdge :=
  [⟨"A".data, "B".data⟩, ⟨"B".data, "A".data⟩]

/-- The tag-extraction round-trip text of the specification. -/
def tagText : Str :=
  "intro <B_Edits>fix X</B_Edits> outro <B_Reasoning>because Y</B_Reasoning> end".data

/-! ## A faithful model of the source substitution line

The source builds `new RegExp` from `\\\x7b` ++ key ++ `\\\x7d` on the RAW
key and calls String.prototype.replace with the g flag.  For keys holding
regex metacharacters this is not literal replacement: the construction can
throw SyntaxError (key `(`), or match non-literally (key `a*` rewrites
`\x7b\x7d` and never the literal `\x7ba*\x7d`), and `$`-sequences in the
replacement value are interpreted by GetSubstitution.  The model below
covers an explicitly delimited fragment of JavaScript regexes: sequences of
single-character atoms (a literal character, `.`, or a mid-pattern anchor,
which can never hold between the surrounding brace literals), each with an
optional greedy quantifier `*`, `+` or `?`.  Keys using features beyond the
fragment (escapes, alternation, balanced groups or classes, braces, lazy
quantifiers) map to `outside`: the model makes no claim about them. -/

/-- A single-character regex atom of the modelled fragment: a literal
character, the dot, or a mid-pattern anchor (`^` or `$`), which between the
brace literals of the engine pattern can never hold, hence `never`. -/
inductive RegexAtom
  | ch : Char → RegexAtom
  | dot : RegexAtom
  | never : RegexAtom
  deriving DecidableEq

/-- Greedy quantifier of an atom: exactly one, `*`, `+`, or `?`. -/
inductive RegexQuant
  | one : RegexQuant
  | star : RegexQuant
  | plus : RegexQuant
  | opt : RegexQuant
  deriving DecidableEq

/-- Result of compiling the key into the fragment: the atom sequence,
a SyntaxError thrown by the RegExp constructor, or a regex outside the
modelled fragment. -/
inductive KeyParse
  | items : List (RegexAtom × RegexQuant) → KeyParse
  | syntaxError : KeyParse
  | outside : KeyParse
  deriving DecidableEq

def isQuantChar (c : Char) : Bool := c = '*' || c = '+' || c = '?'

/-- Parse the key character by character, each iteration expecting an atom
(a leading quantifier has nothing to repeat: SyntaxError, as an unbalanced
group opener or closer or an unterminated class).  A quantifier directly
followed by `?` is a lazy quantifier: outside the fragment. -/
def parseKeyGo : Nat → Str → KeyParse
  | 0, _ => .outside
  | _ + 1, [] => .items []
  | fuel + 1, c :: rest =>
    if isQuantChar c then .syntaxError
    else if c = '(' || c = ')' || c = '[' then .syntaxError
    else if c = '\\' || c = '\x7b' || c = '\x7d' || c = ']' || c = '|' then .outside
    else if c = '^' || c = '$' then
      match rest with
      | q :: _ =>
        if isQuantChar q then .outside
        else
          match parseKeyGo fuel rest with
          | .items l => .items ((RegexAtom.never, RegexQuant.one) :: l)
          | r => r
      | [] => .items [(RegexAtom.never, RegexQuant.one)]
    else
      let atom := if c = '.' then RegexAtom.dot else RegexAtom.ch c
      match rest with
      | q :: rest2 =>
        if isQuantChar q then
          let quant :=
            if q = '*' then RegexQuant.star
            else if q = '+' then RegexQuant.plus
            else RegexQuant.opt
          match rest2 with
          | q2 :: _ =>
            if q2 = '?' then .outside
            else
              match parseKeyGo fuel rest2 with
              | .items l => .items ((atom, quant) :: l)
              | r => r
          | [] => .items [(atom, quant)]
        else
          match parseKeyGo fuel rest with
          | .items l => .items ((atom, RegexQuant.one) :: l)
          | r => r
      | [] => .items [(atom, RegexQuant.one)]

/-- Compile the full engine pattern `\\\x7b` ++ key ++ `\\\x7d`: the escaped
braces are literal atoms; a leading quantifier in the key quantifies the
opening-brace atom; nothing can quantify the closing-brace atom.  Keys in
which a group or class could be balanced are outside the fragment. -/
def parsePattern (key : Str) : KeyParse :=
  if (('(' ∈ key ∧ ')' ∈ key) ∨ ('[' ∈ key ∧ ']' ∈ key)) then .outside
  else
    match key with
    | q :: rest =>
      if isQuantChar q then
        let quant :=
          if q = '*' then RegexQuant.star
          else if q = '+' then RegexQuant.plus
          else RegexQuant.opt
        match rest with
        | q2 :: _ =>
          if q2 = '?' then .outside
          else
            match parseKeyGo rest.length rest with
            | .items l =>
              .items ((RegexAtom.ch '\x7b', quant)
                :: (l ++ [(RegexAtom.ch '\x7d', RegexQuant.one)]))
            | r => r
        | [] =>
          .items [(RegexAtom.ch '\x7b', quant),
            (RegexAtom.ch '\x7d', RegexQuant.one)]
      else
        match parseKeyGo key.length key with
        | .items l =>
          .items ((RegexAtom.ch '\x7b', RegexQuant.one)
            :: (l ++ [(RegexAtom.ch '\x7d', RegexQuant.one)]))
        | r => r
    | [] =>
      .items [(RegexAtom.ch '\x7b', RegexQuant.one),
        (RegexAtom.ch '\x7d', RegexQuant.one)]

/-- One atom against one character; the dot excludes the four JavaScript
line terminators, the mid-pattern anchor never holds. -/
def atomMatch : RegexAtom → Char → Bool
  | RegexAtom.ch c, d => c = d
  | RegexAtom.dot, d =>
    !(d = Char.ofNat 10 || d = Char.ofNat 13
      || d = Char.ofNat 8232 || d = Char.ofNat 8233)
  | RegexAtom.never, _ => false

/-- Greedy backtracking matcher: the length of the match of the atom
sequence at the head of `s`, or none.  A quantified atom first tries to
consume and falls back to fewer repetitions when the rest of the sequence
fails, as the JavaScript engine does.  Fuel decreases every call; every
call consumes a character or drops an item, so `items.length + s.length + 1`
suffices. -/
def matchItemsAux : Nat → List (RegexAtom × RegexQuant) → Str → Option Nat
  | 0, _, _ => none
  | _ + 1, [], _ => some 0
  | fuel + 1, (a, RegexQuant.one) :: items, s =>
    match s with
    | [] => none
    | c :: rest =>
      if atomMatch a c then
        (matchItemsAux fuel items rest).map (fun n => n + 1)
      else none
  | fuel + 1, (a, RegexQuant.opt) :: items, s =>
    match s with
    | c :: rest =>
      if atomMatch a c then
        match (matchItemsAux fuel items rest).map (fun n => n + 1) with
        | some n => some n
        | none => matchItemsAux fuel items s
      else matchItemsAux fuel items s
    | [] => matchItemsAux fuel items s
  | fuel + 1, (a, RegexQuant.plus) :: items, s =>
    match s with
    | [] => none
    | c :: rest =>
      if atomMatch a c then
        (matchItemsAux fuel ((a, RegexQuant.star) :: items) rest).map
          (fun n => n + 1)
      else none
  | fuel + 1, (a, RegexQuant.star) :: items, s =>
    match s with
    | c :: rest =>
      if atomMatch a c then
        match (matchItemsAux fuel ((a, RegexQuant.star) :: items) rest).map
            (fun n => n + 1) with
        | some n => some n
        | none => matchItemsAux fuel items s
      else matchItemsAux fuel items s
    | [] => matchItemsAux fuel items s

/-- GetSubstitution on the replacement value: `$$` yields `$`, `$&` the
matched text, a dollar-backquote the text before the match, a
dollar-quote the text after; any other `$` (including `$n` digit
references, literal since the fragment has no capture groups) stays
literal. -/
def applyDollar (matched before after : Str) : Str → Str
  | [] => []
  | [c] => [c]
  | c :: d :: rest =>
    if c = '$' then
      if d = '$' then '$' :: applyDollar matched before after rest
      else if d = '&' then matched ++ applyDollar matched before after rest
      else if d = Char.ofNat 96 then before ++ applyDollar matched before after rest
      else if d = Char.ofNat 39 then after ++ applyDollar matched before after rest
      else c :: applyDollar matched before after (d :: rest)
    else c :: applyDollar matched before after (d :: rest)

/-- Global replace: scan the subject left to right, at each position try
the matcher; on a match emit the substituted replacement and continue
after the matched span, otherwise keep the character.  `pre` accumulates
the scanned original text for the dollar-backquote sequence.  Every step
consumes at least one character, so fuel `s.length` suffices; a zero-width
match (impossible here, the closing-brace atom is unquantified) would
advance one character as lastIndex does. -/
def regexScanAux (items : List (RegexAtom × RegexQuant)) (rep : Str) :
    Nat → Str → Str → Str
  | 0, _, s => s
  | _ + 1, _, [] => []
  | fuel + 1, pre, c :: rest =>
    match matchItemsAux (items.length + (c :: rest).length + 1) items
        (c :: rest) with
    | some (n + 1) =>
      applyDollar ((c :: rest).take (n + 1)) pre ((c :: rest).drop (n + 1)) rep
        ++ regexScanAux items rep fuel (pre ++ (c :: rest).take (n + 1))
            ((c :: rest).drop (n + 1))
    | some 0 =>
      applyDollar [] pre (c :: rest) rep
        ++ c :: regexScanAux items rep fuel (pre ++ [c]) rest
    | none => c :: regexScanAux items rep fuel (pre ++ [c]) rest

/-- Result of one source substitution line on arbitrary keys: the new
subject, a thrown SyntaxError, or a key outside the modelled fragment. -/
inductive JsSubstResult
  | ok : Str → JsSubstResult
  | syntaxError : JsSubstResult
  | outside : JsSubstResult
  deriving DecidableEq

/-- `processed.replace(new RegExp(escapedBraces around the raw key, g),
String(value))`, faithfully for keys inside the fragment. -/
def jsReplaceBraced (s key rep : Str) : JsSubstResult :=
  match parsePattern key with
  | .items l => .ok (regexScanAux l rep s.length [] s)
  | .syntaxError => .syntaxError
  | .outside => .outside

/-- The full processPromptTemplate loop over the raw keys: a thrown
SyntaxError aborts the loop and propagates (sticky), as in the source. -/
def processPromptTemplateRegex (template : Str) (vars : List (Str × Str)) :
    JsSubstResult :=
  vars.foldl
    (fun acc entry =>
      match acc with
      | .ok processed => jsReplaceBraced processed entry.1 entry.2
      | r => r)
    (.ok template)

/-- A character the RegExp constructor treats literally. -/
def regexLiteralChar (c : Char) : Bool :=
  !(c = '\\' || c = '^' || c = '$' || c = '.' || c = '*' || c = '+'
    || c = '?' || c = '(' || c = ')' || c = '[' || c = ']'
    || c = '\x7b' || c = '\x7d' || c = '|')

/-- A key the raw-key RegExp construction treats as its literal text. -/
def regexLiteral (key : Str) : Bool := key.all regexLiteralChar

/-- A replacement value GetSubstitution leaves unchanged. -/
def dollarFree (rep : Str) : Bool := rep.all (fun c => !(c = '$'))

/-- The atom sequence a literal key compiles to. -/
def litItems (key : Str) : List (RegexAtom × RegexQuant) :=
  ('\x7b' :: key ++ ['\x7d']).map (fun c => (RegexAtom.ch c, RegexQuant.one))

/-! ## Lemmas about the string helpers -/

theorem ne_of_length_ne {a b : Str} (h : a.length ≠ b.length) : a ≠ b :=
  fun he => h (congrArg List.length he)

theorem isPrefixOf_append_self (l t : Str) : l.isPrefixOf (l ++ t) = true := by
  induction l with
  | nil => simp [List.isPrefixOf]
  | cons a as ih => simp [List.isPrefixOf, ih]

theorem isPrefixOf_cons_of_ne {a b : Char} (h : b ≠ a) (l s : Str) :
    (a :: l).isPrefixOf (b :: s) = false := by
  have hab : (a == b) = false := by
    exact beq_eq_false_iff_ne.mpr (fun h' => h h'.symm)
  simp [List.isPrefixOf, hab]

theorem replaceAllAux_fuel (pat rep : Str) (hpat : pat ≠ []) :
    ∀ f1 f2 s, s.length ≤ f1 → s.length ≤ f2 →
      replaceAllAux pat rep f1 s = replaceAllAux pat rep f2 s := by
  have hplen : 1 ≤ pat.length := List.length_pos.mpr hpat
  intro f1
  induction f1 with
  | zero =>
    intro f2 s h1 _
    have hs : s = [] := List.eq_nil_of_length_eq_zero (Nat.le_zero.mp h1)
    subst hs
    cases f2 <;> simp [replaceAllAux]
  | succ g ih =>
    intro f2 s h1 h2
    cases s with
    | nil => cases f2 <;> simp [replaceAllAux]
    | cons c rest =>
      cases f2 with
      | zero => simp at h2
      | succ h =>
        simp only [replaceAllAux]
        by_cases hp : pat.isPrefixOf (c :: rest) = true
        · simp only [hp, if_true]
          have hlc : (c :: rest).length = rest.length + 1 := rfl
          have hd : ((c :: rest).drop pat.length).length ≤ g := by
            simp only [List.length_drop, hlc]
            simp only [hlc] at h1
            omega
          have hd' : ((c :: rest).drop pat.length).length ≤ h := by
            simp only [List.length_drop, hlc]
            simp only [hlc] at h2
            omega
          rw [ih h ((c :: rest).drop pat.length) hd hd']
        · have hp' : pat.isPrefixOf (c :: rest) = false := by
            cases hval : pat.isPrefixOf (c :: rest)
            · rfl
            · exact absurd hval hp
          simp only [hp', if_false, Bool.false_eq_true]
          have hr : rest.length ≤ g := by
            simp only [List.length_cons] at h1; omega
          have hr' : rest.length ≤ h := by
            simp only [List.length_cons] at h2; omega
          rw [ih h rest hr hr']

theorem replaceAllAux_of_not_occurs (pat rep : Str) :
    ∀ fuel s, occursIn pat s = false →
      replaceAllAux pat rep fuel s = s := by
  intro fuel
  induction fuel with
  | zero => intro s _; rfl
  | succ g ih =>
    intro s hocc
    cases s with
    | nil => rfl
    | cons c rest =>
      simp only [occursIn, Bool.or_eq_false_iff] at hocc
      simp only [replaceAllAux, hocc.1, if_false, Bool.false_eq_true]
      rw [ih rest hocc.2]

/-- A string in which the pattern does not occur is returned unchanged. -/
theorem replaceAll_of_not_occurs {pat : Str} (s rep : Str) (hpat : pat ≠ [])
    (hocc : occursIn pat s = false) : replaceAll s pat rep = s := by
  have : pat.isEmpty = false := by
    cases pat with
    | nil => exact absurd rfl hpat
    | cons a as => rfl
  simp only [replaceAll, this, if_false, Bool.false_eq_true]
  exact replaceAllAux_of_not_occurs pat rep _ s hocc

/-- A pattern starting with an open brace cannot occur in a brace-free string. -/
theorem occursIn_eq_false_of_no_open {p : Str} (s : Str)
    (hs : ∀ c ∈ s, c ≠ '{') : occursIn ('{' :: p) s = false := by
  induction s with
  | nil => rfl
  | cons c rest ih =>
    have hc : c ≠ '{' := hs c (List.mem_cons_self c rest)
    simp only [occursIn, Bool.or_eq_false_iff]
    constructor
    · exact isPrefixOf_cons_of_ne hc p rest
    · exact ih (fun x hx => hs x (List.mem_cons_of_mem c hx))

theorem replaceAllAux_match {p : Str} (rep : Str) :
    ∀ a b fuel, (∀ c ∈ a, c ≠ '{') → (a ++ ('{' :: p) ++ b).length ≤ fuel →
      replaceAllAux ('{' :: p) rep fuel (a ++ ('{' :: p) ++ b)
        = a ++ rep ++ replaceAllAux ('{' :: p) rep b.length b := by
  intro a
  induction a with
  | nil =>
    intro b fuel _ hlen
    cases fuel with
    | zero => simp at hlen
    | succ g =>
      have hpre : (('{' :: p)).isPrefixOf (([] : Str) ++ ('{' :: p) ++ b) = true := by
        simp only [List.nil_append]
        exact isPrefixOf_append_self ('{' :: p) b
      have hshape : (([] : Str) ++ ('{' :: p) ++ b) = '{' :: (p ++ b) := by simp
      rw [hshape] at hpre ⊢
      simp only [replaceAllAux, hpre, if_true]
      have hdrop : (('{' :: (p ++ b)).drop ('{' :: p).length) = b := by
        have : ('{' :: (p ++ b)) = ('{' :: p) ++ b := by simp
        rw [this, List.drop_left]
      rw [hdrop]
      have hg : b.length ≤ g := by
        simp only [List.length_cons, List.length_append] at hlen ⊢
        omega
      rw [replaceAllAux_fuel ('{' :: p) rep (by simp) g b.length b hg (Nat.le_refl _)]
      simp
  | cons c a' ih =>
    intro b fuel hfree hlen
    cases fuel with
    | zero => simp at hlen
    | succ g =>
      have hc : c ≠ '{' := hfree c (List.mem_cons_self c a')
      have hshape : ((c :: a') ++ ('{' :: p) ++ b) = c :: (a' ++ ('{' :: p) ++ b) := by
        simp
      rw [hshape]
      have hpre : (('{' :: p)).isPrefixOf (c :: (a' ++ ('{' :: p) ++ b)) = false :=
        isPrefixOf_cons_of_ne hc p _
      simp only [replaceAllAux, hpre, if_false, Bool.false_eq_true]
      have hg : (a' ++ ('{' :: p) ++ b).length ≤ g := by
        simp only [List.length_cons, List.length_append] at hlen ⊢
        omega
      rw [ih b g (fun x hx => hfree x (List.mem_cons_of_mem c hx)) hg]
      simp

/-- Replacement at an occurrence preceded by brace-free text: the occurrence
is replaced and replacement continues to its right. -/
theorem replaceAll_match {p : Str} (a b rep : Str) (ha : ∀ c ∈ a, c ≠ '{') :
    replaceAll (a ++ ('{' :: p) ++ b) ('{' :: p) rep
      = a ++ rep ++ replaceAll b ('{' :: p) rep := by
  simp only [replaceAll, List.isEmpty_cons, if_false, Bool.false_eq_true]
  exact replaceAllAux_match rep a b _ ha (Nat.le_refl _)

/-! ## Lemmas about insertion-ordered maps -/

theorem lookupStr_mapSet_self (m : List (Str × Str)) (k v : Str) :
    lookupStr (mapSet m k v) k = some v := by
  induction m with
  | nil => simp [mapSet, lookupStr]
  | cons p rest ih =>
    obtain ⟨k', v'⟩ := p
    by_cases h : k' = k
    · simp [mapSet, lookupStr, h]
    · simp [mapSet, lookupStr, h, ih]

theorem lookupStr_mapSet_ne (m : List (Str × Str)) {k k' : Str} (h : k' ≠ k)
    (v : Str) : lookupStr (mapSet m k' v) k = lookupStr m k := by
  induction m with
  | nil => simp [mapSet, lookupStr, h]
  | cons p rest ih =>
    obtain ⟨k'', v''⟩ := p
    by_cases h2 : k'' = k'
    · subst h2
      simp [mapSet, lookupStr, h]
    · by_cases h3 : k'' = k
      · have h4 : ¬ (k = k') := fun he => h he.symm
        simp [mapSet, lookupStr, h2, h3, h4]
      · simp [mapSet, lookupStr, h2, h3, ih]

/-! ## Claim C3: template substitution -/

theorem lit_char_facts {c : Char} (h : regexLiteralChar c = true) :
    isQuantChar c = false
    ∧ (decide (c = '(') || decide (c = ')') || decide (c = '[')) = false
    ∧ (decide (c = '\\') || decide (c = '{') || decide (c = '}')
        || decide (c = ']') || decide (c = '|')) = false
    ∧ (decide (c = '^') || decide (c = '$')) = false
    ∧ ¬ c = '.' := by
  simp only [regexLiteralChar, Bool.not_eq_true', Bool.or_eq_false_iff,
    decide_eq_false_iff_not] at h
  simp only [isQuantChar, Bool.or_eq_false_iff, decide_eq_false_iff_not]
  tauto

/-- On a key of literal characters the parser yields one unquantified
literal atom per character. -/
theorem parseKeyGo_literal :
    ∀ (fuel : Nat) (key : Str), regexLiteral key = true →
      key.length ≤ fuel → 0 < fuel →
      parseKeyGo fuel key
        = .items (key.map (fun c => (RegexAtom.ch c, RegexQuant.one))) := by
  intro fuel
  induction fuel with
  | zero => intro key _ _ h0; exact absurd h0 (by omega)
  | succ f ih =>
    intro key hlit hlen _
    have hall := List.all_eq_true.mp hlit
    cases key with
    | nil => rfl
    | cons c rest =>
      obtain ⟨hq1, hq2, hq3, hq4, hdot⟩ :=
        lit_char_facts (hall c (List.mem_cons_self c rest))
      simp only [parseKeyGo, hq1, hq2, hq3, hq4, Bool.false_eq_true,
        if_false, if_neg hdot]
      cases rest with
      | nil => rfl
      | cons q rest2 =>
        obtain ⟨hqq, -, -, -, -⟩ :=
          lit_char_facts (hall q (List.mem_cons_of_mem c (List.mem_cons_self q rest2)))
        simp only [hqq, Bool.false_eq_true, if_false]
        rw [ih (q :: rest2)
          (List.all_eq_true.mpr
            (fun x hx => hall x (List.mem_cons_of_mem c hx)))
          (by simp only [List.length_cons] at hlen ⊢; omega)
          (by simp only [List.length_cons] at hlen; omega)]
        rfl

/-- A key of literal characters compiles to the literal pattern of the
engine: open brace, the key characters, close brace, each unquantified. -/
theorem parsePattern_literal (key : Str) (h : regexLiteral key = true) :
    parsePattern key = .items (litItems key) := by
  have hall := List.all_eq_true.mp h
  have hnot : ¬ (('(' ∈ key ∧ ')' ∈ key) ∨ ('[' ∈ key ∧ ']' ∈ key)) := by
    rintro (⟨hm, -⟩ | ⟨hm, -⟩)
    · have := hall '(' hm
      simp [regexLiteralChar] at this
    · have := hall '[' hm
      simp [regexLiteralChar] at this
  simp only [parsePattern, if_neg hnot]
  cases key with
  | nil => rfl
  | cons c rest =>
    obtain ⟨hq1, -, -, -, -⟩ :=
      lit_char_facts (hall c (List.mem_cons_self c rest))
    simp only [hq1, Bool.false_eq_true, if_false]
    rw [parseKeyGo_literal (c :: rest).length (c :: rest) h (Nat.le_refl _)
      (by simp)]
    simp [litItems]

/-- The matcher on a sequence of unquantified literal atoms is prefix
matching. -/
theorem matchItemsAux_lit :
    ∀ (l : List Char) (fuel : Nat) (s : Str), l.length < fuel →
      matchItemsAux fuel (l.map (fun c => (RegexAtom.ch c, RegexQuant.one))) s
        = if l.isPrefixOf s then some l.length else none := by
  intro l
  induction l with
  | nil =>
    intro fuel s hf
    cases fuel with
    | zero => simp at hf
    | succ f => simp [matchItemsAux, List.isPrefixOf]
  | cons c l2 ih =>
    intro fuel s hf
    cases fuel with
    | zero => simp at hf
    | succ f =>
      have hf2 : l2.length < f := by
        simp only [List.length_cons] at hf
        omega
      cases s with
      | nil => simp [matchItemsAux, List.isPrefixOf]
      | cons d rest =>
        simp only [List.map_cons, matchItemsAux, atomMatch, List.isPrefixOf]
        by_cases hcd : c = d
        · rw [ih f rest hf2]
          by_cases hp : l2.isPrefixOf rest = true
          · simp [hcd, hp]
          · simp [hcd, hp]
        · simp [hcd]

theorem applyDollar_cons_ne (matched before after : Str) {c : Char}
    (h : ¬ c = '$') (rest : Str) :
    applyDollar matched before after (c :: rest)
      = c :: applyDollar matched before after rest := by
  cases rest with
  | nil => rfl
  | cons d rest2 => simp [applyDollar, h]

/-- GetSubstitution is the identity on dollar-free replacement values. -/
theorem applyDollar_dollarFree (matched before after : Str) :
    ∀ (rep : Str), dollarFree rep = true →
      applyDollar matched before after rep = rep := by
  intro rep
  induction rep with
  | nil => intro _; rfl
  | cons c rest ih =>
    intro h
    simp only [dollarFree, List.all_cons, Bool.and_eq_true, Bool.not_eq_true',
      decide_eq_false_iff_not] at h
    rw [applyDollar_cons_ne matched before after h.1 rest, ih h.2]

/-- On the literal pattern and a dollar-free value the global regex scan is
the literal global replacement, step for step at every fuel. -/
theorem regexScanAux_lit (key rep : Str) (hrep : dollarFree rep = true) :
    ∀ (fuel : Nat) (pre s : Str),
      regexScanAux (litItems key) rep fuel pre s
        = replaceAllAux ('{' :: key ++ ['}']) rep fuel s := by
  intro fuel
  induction fuel with
  | zero => intro pre s; rfl
  | succ f ih =>
    intro pre s
    cases s with
    | nil => rfl
    | cons c rest =>
      have hlen : ('{' :: key ++ ['}']).length
          < (List.map (fun c => (RegexAtom.ch c, RegexQuant.one))
              ('{' :: key ++ ['}'])).length + (c :: rest).length + 1 := by
        simp only [List.length_map, List.length_cons, List.length_append]
        omega
      simp only [regexScanAux, litItems]
      rw [matchItemsAux_lit ('{' :: key ++ ['}']) _ (c :: rest) hlen]
      by_cases hpre : ('{' :: key ++ ['}']).isPrefixOf (c :: rest) = true
      · rw [if_pos hpre]
        show applyDollar ((c :: rest).take ((key ++ ['}']).length + 1)) pre
            ((c :: rest).drop ((key ++ ['}']).length + 1)) rep ++
          regexScanAux (List.map (fun c => (RegexAtom.ch c, RegexQuant.one))
            ('{' :: key ++ ['}'])) rep f
            (pre ++ (c :: rest).take ((key ++ ['}']).length + 1))
            ((c :: rest).drop ((key ++ ['}']).length + 1))
          = replaceAllAux ('{' :: key ++ ['}']) rep (f + 1) (c :: rest)
        rw [applyDollar_dollarFree _ _ _ rep hrep]
        rw [show List.map (fun c => (RegexAtom.ch c, RegexQuant.one))
            ('{' :: key ++ ['}']) = litItems key from rfl]
        rw [ih]
        simp only [replaceAllAux]
        rw [if_pos hpre]
        rfl
      · rw [if_neg hpre]
        show c :: regexScanAux (List.map
            (fun c => (RegexAtom.ch c, RegexQuant.one))
            ('{' :: key ++ ['}'])) rep f (pre ++ [c]) rest
          = replaceAllAux ('{' :: key ++ ['}']) rep (f + 1) (c :: rest)
        rw [show List.map (fun c => (RegexAtom.ch c, RegexQuant.one))
            ('{' :: key ++ ['}']) = litItems key from rfl]
        rw [ih]
        simp only [replaceAllAux]
        rw [if_neg hpre]

/-- On a literal key and a dollar-free value the source line is exactly
the literal global replacement. -/
theorem jsReplaceBraced_literal (s key rep : Str)
    (hk : regexLiteral key = true) (hr : dollarFree rep = true) :
    jsReplaceBraced s key rep
      = .ok (replaceAll s ('{' :: key ++ ['}']) rep) := by
  simp only [jsReplaceBraced, parsePattern_literal key hk]
  rw [regexScanAux_lit key rep hr s.length [] s]
  simp [replaceAll]

/-- The faithful loop agrees with the literal model whenever every name is
regex-literal and every value dollar-free. -/
theorem processPromptTemplateRegex_literal :
    ∀ (vars : List (Str × Str)) (template : Str),
      (∀ p ∈ vars, regexLiteral p.1 = true ∧ dollarFree p.2 = true) →
      processPromptTemplateRegex template vars
        = .ok (processPromptTemplate template vars) := by
  intro vars
  induction vars with
  | nil => intro template _; rfl
  | cons p rest ih =>
    intro template h
    have hstep := jsReplaceBraced_literal template p.1 p.2
      (h p (List.mem_cons_self p rest)).1 (h p (List.mem_cons_self p rest)).2
    simp only [processPromptTemplateRegex, List.foldl_cons] at ih ⊢
    rw [hstep]
    simp only [processPromptTemplate, List.foldl_cons]
    exact ih (replaceAll template ('{' :: p.1 ++ ['}']) p.2)
      (fun q hq => h q (List.mem_cons_of_mem p hq))

/-- C3 counterexample: the source builds the RegExp from the raw key, so
substitution is not the claimed literal replacement.  A mapping with name
a* never rewrites the literal occurrence of open brace, a, star, close
brace, yet rewrites the bare brace pair in which the name does not occur;
a mapping with name ( throws SyntaxError instead of raising no error; and
a value of two dollar signs is inserted as one dollar sign, not as its
text. -/
theorem C3_counterexample :
    processPromptTemplateRegex ('{' :: "a*".data ++ ['}'])
        [("a*".data, "X".data)] = .ok ('{' :: "a*".data ++ ['}'])
    ∧ ('{' :: "a*".data ++ ['}']) ≠ "X".data
    ∧ processPromptTemplateRegex ['{', '}'] [("a*".data, "X".data)]
        = .ok "X".data
    ∧ occursIn ('{' :: "a*".data ++ ['}']) ['{', '}'] = false
    ∧ processPromptTemplateRegex "t".data [("(".data, "X".data)]
        = .syntaxError
    ∧ processPromptTemplateRegex ('{' :: "n".data ++ ['}'])
        [("n".data, "$$".data)] = .ok "$".data
    ∧ ("$".data : Str) ≠ "$$".data := by
  decide

/-- C3 amended: for mappings whose names hold no regex metacharacter and
whose values hold no dollar sign -- which covers every mapping the engine
builds from plain node ids -- the raw-key RegExp denotes literal global
replacement: the faithful model returns ok of the literal substitution
(first conjunct), which leaves templates without occurrences unchanged,
replaces every literal occurrence globally with exact-name matching, and
passes unknown names through literally (second to fourth conjuncts).
Outside that restriction the claimed behaviour fails: a metacharacter name
does not rewrite its literal occurrence yet rewrites another string, an
unbalanced class opener throws SyntaxError, and GetSubstitution interprets
dollar sequences in the value (last four conjuncts). -/
theorem C3_amended :
    (∀ (vars : List (Str × Str)) (template : Str),
        (∀ p ∈ vars, regexLiteral p.1 = true ∧ dollarFree p.2 = true) →
        processPromptTemplateRegex template vars
          = .ok (processPromptTemplate template vars))
    ∧ (∀ (vars : List (Str × Str)) (template : Str),
        (∀ p ∈ vars, occursIn ('{' :: p.1 ++ ['}']) template = false) →
        processPromptTemplate template vars = template)
    ∧ (∀ (name val a b c : Str),
        (∀ ch ∈ a, ch ≠ '{') → (∀ ch ∈ b, ch ≠ '{') → (∀ ch ∈ c, ch ≠ '{') →
        processPromptTemplate
            (a ++ ('{' :: name ++ ['}']) ++ b ++ ('{' :: name ++ ['}']) ++ c)
            [(name, val)]
          = a ++ val ++ b ++ val ++ c)
    ∧ processPromptTemplate ('{' :: "unknown_name".data ++ ['}'])
        [("input".data, "hello".data)] = '{' :: "unknown_name".data ++ ['}']
    ∧ processPromptTemplateRegex
        ("x".data ++ ('{' :: "b*".data ++ ['}']) ++ "y".data)
        [("b*".data, "V".data)]
        = .ok ("x".data ++ ('{' :: "b*".data ++ ['}']) ++ "y".data)
    ∧ processPromptTemplateRegex ("a".data ++ ['{', '}'] ++ "d".data)
        [("b*".data, "V".data)] = .ok "aVd".data
    ∧ processPromptTemplateRegex "t".data [("[".data, "V".data)]
        = .syntaxError
    ∧ processPromptTemplateRegex ('{' :: "n".data ++ ['}'])
        [("n".data, "<$&>".data)]
        = .ok ("<".data ++ ('{' :: "n".data ++ ['}']) ++ ">".data) := by
  refine ⟨processPromptTemplateRegex_literal, ?_, ?_, by decide, by decide,
    by decide, by decide, by decide⟩
  · intro vars
    induction vars with
    | nil => intro template _; rfl
    | cons p rest ih =>
      intro template hocc
      have h1 : replaceAll template ('{' :: p.1 ++ ['}']) p.2 = template :=
        replaceAll_of_not_occurs template p.2 (by simp)
          (hocc p (List.mem_cons_self _ _))
      show processPromptTemplate template (p :: rest) = template
      simp only [processPromptTemplate, List.foldl_cons]
      rw [show (replaceAll template ('{' :: p.1 ++ ['}']) p.2) = template from h1]
      exact ih template (fun q hq => hocc q (List.mem_cons_of_mem p hq))
  · intro name val a b c ha hb hc
    have hT : a ++ ('{' :: name ++ ['}']) ++ b ++ ('{' :: name ++ ['}']) ++ c
        = a ++ ('{' :: (name ++ ['}'])) ++ (b ++ ('{' :: (name ++ ['}'])) ++ c) := by
      simp [List.append_assoc]
    show replaceAll (a ++ ('{' :: name ++ ['}']) ++ b ++ ('{' :: name ++ ['}']) ++ c)
        ('{' :: name ++ ['}']) val = a ++ val ++ b ++ val ++ c
    rw [hT]
    have hmatch1 := replaceAll_match (p := name ++ ['}']) a
      (b ++ ('{' :: (name ++ ['}'])) ++ c) val ha
    rw [show ('{' :: name ++ ['}']) = ('{' :: (name ++ ['}'])) from by simp]
    rw [hmatch1]
    rw [replaceAll_match (p := name ++ ['}']) b c val hb]
    rw [replaceAll_of_not_occurs c val (by simp)
      (occursIn_eq_false_of_no_open c hc)]
    simp [List.append_assoc]

/-- C3 witness: the amended theorem applied at concrete inputs, every
hypothesis discharged by evaluation. -/
theorem C3_amended_witness :
    processPromptTemplateRegex
        ("x ".data ++ ('{' :: "n".data ++ ['}']) ++ "y".data)
        [("n".data, "V".data)]
      = .ok (processPromptTemplate
          ("x ".data ++ ('{' :: "n".data ++ ['}']) ++ "y".data)
          [("n".data, "V".data)])
    ∧ processPromptTemplate "hello there".data
        [("input".data, "gone".data)] = "hello there".data
    ∧ processPromptTemplate
          ("x ".data ++ ('{' :: "n".data ++ ['}']) ++ " y ".data ++
            ('{' :: "n".data ++ ['}']) ++ " z".data)
          [("n".data, "V".data)]
        = "x ".data ++ "V".data ++ " y ".data ++ "V".data ++ " z".data :=
  ⟨C3_amended.1 [("n".data, "V".data)]
      ("x ".data ++ ('{' :: "n".data ++ ['}']) ++ "y".data) (by decide),
   C3_amended.2.1 [("input".data, "gone".data)] "hello there".data
      (by decide),
   C3_amended.2.2.1 "n".data "V".data "x ".data " y ".data " z".data
      (by decide) (by decide) (by decide)⟩

/-! ## Claim C4: tag extraction into synthetic template variables -/

theorem append_edits_ne_input (nid : Str) : nid ++ "_edits".data ≠ "input".data := by
  apply ne_of_length_ne
  simp [List.length_append]

theorem append_reasoning_ne_input (nid : Str) :
    nid ++ "_reasoning".data ≠ "input".data := by
  apply ne_of_length_ne
  simp [List.length_append]

theorem append_edits_ne_self (nid : Str) : nid ++ "_edits".data ≠ nid := by
  apply ne_of_length_ne
  simp [List.length_append]

theorem append_reasoning_ne_self (nid : Str) : nid ++ "_reasoning".data ≠ nid := by
  apply ne_of_length_ne
  simp [List.length_append]

theorem append_reasoning_ne_edits (nid : Str) :
    nid ++ "_reasoning".data ≠ nid ++ "_edits".data := by
  apply ne_of_length_ne
  simp [List.length_append]

/-- C4: for a context entry whose value contains a B_Edits or B_Reasoning
span, the template variable set gains the synthetic entry named nodeId_edits
or nodeId_reasoning holding the trimmed inner text of the first span, and no
such entry exists when the tag is absent; a downstream template consisting
of the llm-1_edits placeholder resolves to exactly the trimmed inner text on
the specification's round-trip text, whose extracted spans are fix X and
because Y. -/
theorem C4_tag_variables :
    (∀ (inp nid out : Str), nid ≠ "input".data →
      ((∀ e, extractTagged bEditsOpen bEditsClose out = some e →
          lookupStr (buildTemplateVariables inp [(nid, out)])
            (nid ++ "_edits".data) = some (trimStr e))
       ∧ (extractTagged bEditsOpen bEditsClose out = none →
          lookupStr (buildTemplateVariables inp [(nid, out)])
            (nid ++ "_edits".data) = none)
       ∧ (∀ r, extractTagged bReasoningOpen bReasoningClose out = some r →
          lookupStr (buildTemplateVariables inp [(nid, out)])
            (nid ++ "_reasoning".data) = some (trimStr r))
       ∧ (extractTagged bReasoningOpen bReasoningClose out = none →
          lookupStr (buildTemplateVariables inp [(nid, out)])
            (nid ++ "_reasoning".data) = none)))
    ∧ (∀ inp : Str,
        processPromptTemplate ('{' :: "llm-1_edits".data ++ ['}'])
            (buildTemplateVariables inp [("llm-1".data, tagText)])
          = "fix X".data)
    ∧ (extractTagged bEditsOpen bEditsClose tagText).map trimStr
        = some "fix X".data
    ∧ (extractTagged bReasoningOpen bReasoningClose tagText).map trimStr
        = some "because Y".data := by
  refine ⟨?_, ?_, by decide, by decide⟩
  · intro inp nid out hn
    have hn' : ¬ ("input".data = nid) := fun h => hn h.symm
    have h1 : mapSet [("input".data, inp)] nid out
        = [("input".data, inp), (nid, out)] := by
      simp [mapSet, hn']
    have hEi : ¬ ("input".data = nid ++ "_edits".data) :=
      fun h => append_edits_ne_input nid h.symm
    have hEn : ¬ (nid = nid ++ "_edits".data) :=
      fun h => append_edits_ne_self nid h.symm
    have hRi : ¬ ("input".data = nid ++ "_reasoning".data) :=
      fun h => append_reasoning_ne_input nid h.symm
    have hRn : ¬ (nid = nid ++ "_reasoning".data) :=
      fun h => append_reasoning_ne_self nid h.symm
    have hRE : ¬ (nid ++ "_edits".data = nid ++ "_reasoning".data) :=
      fun h => append_reasoning_ne_edits nid h.symm
    have hER : ¬ (nid ++ "_reasoning".data = nid ++ "_edits".data) :=
      append_reasoning_ne_edits nid
    refine ⟨?_, ?_, ?_, ?_⟩
    · intro e hE
      cases hR : extractTagged bReasoningOpen bReasoningClose out with
      | none =>
        simp [buildTemplateVariables, addContextEntry, hE, hR, h1, mapSet, lookupStr, hn', hEi, hEn]
      | some r =>
        simp [buildTemplateVariables, addContextEntry, hE, hR, h1, mapSet, lookupStr,
          hn', hEi, hEn, hRi, hRn, hRE]
    · intro hE
      cases hR : extractTagged bReasoningOpen bReasoningClose out with
      | none =>
        simp [buildTemplateVariables, addContextEntry, hE, hR, h1, mapSet, lookupStr, hn', hEi, hEn]
      | some r =>
        simp [buildTemplateVariables, addContextEntry, hE, hR, h1, mapSet, lookupStr,
          hn', hEi, hEn, hRi, hRn, hER]
    · intro r hR
      cases hE : extractTagged bEditsOpen bEditsClose out with
      | none =>
        simp [buildTemplateVariables, addContextEntry, hE, hR, h1, mapSet, lookupStr, hn', hRi, hRn]
      | some e =>
        simp [buildTemplateVariables, addContextEntry, hE, hR, h1, mapSet, lookupStr,
          hn', hRi, hRn, hEi, hEn, hER]
    · intro hR
      cases hE : extractTagged bEditsOpen bEditsClose out with
      | none =>
        simp [buildTemplateVariables, addContextEntry, hE, hR, h1, mapSet, lookupStr, hn', hRi, hRn]
      | some e =>
        simp [buildTemplateVariables, addContextEntry, hE, hR, h1, mapSet, lookupStr,
          hn', hRi, hRn, hEi, hEn, hER]
  · intro inp
    rfl

/-- C4 witness: the theorem applied at concrete inputs, the hypotheses
discharged by evaluation. -/
theorem C4_tag_variables_witness :
    lookupStr (buildTemplateVariables "x".data [("llm-1".data, tagText)])
        ("llm-1".data ++ "_edits".data) = some (trimStr "fix X".data)
    ∧ lookupStr (buildTemplateVariables "x".data [("n".data, "plain".data)])
        ("n".data ++ "_edits".data) = none
    ∧ processPromptTemplate ('{' :: "llm-1_edits".data ++ ['}'])
        (buildTemplateVariables "orig".data [("llm-1".data, tagText)])
      = "fix X".data :=
  ⟨(C4_tag_variables.1 "x".data "llm-1".data tagText (by decide)).1
      "fix X".data (by decide),
   (C4_tag_variables.1 "x".data "n".data "plain".data (by decide)).2.1
      (by decide),
   C4_tag_variables.2.1 "orig".data⟩

/-! ## Claim C2: the binding of the input template variable -/

theorem lookup_addContextEntry_ne (vars : List (Str × Str)) (entry : Str × Str)
    (h : entry.1 ≠ "input".data) :
    lookupStr (addContextEntry vars entry) "input".data
      = lookupStr vars "input".data := by
  simp only [addContextEntry]
  cases hE : extractTagged bEditsOpen bEditsClose entry.2 with
  | none =>
    cases hR : extractTagged bReasoningOpen bReasoningClose entry.2 with
    | none => simp only [lookupStr_mapSet_ne _ h]
    | some r =>
      simp only [lookupStr_mapSet_ne _ (append_reasoning_ne_input entry.1),
        lookupStr_mapSet_ne _ h]
  | some e =>
    cases hR : extractTagged bReasoningOpen bReasoningClose entry.2 with
    | none =>
      simp only [lookupStr_mapSet_ne _ (append_edits_ne_input entry.1),
        lookupStr_mapSet_ne _ h]
    | some r =>
      simp only [lookupStr_mapSet_ne _ (append_reasoning_ne_input entry.1),
        lookupStr_mapSet_ne _ (append_edits_ne_input entry.1),
        lookupStr_mapSet_ne _ h]

theorem buildVars_foldl_input (inp : Str) :
    ∀ (ctx : List (Str × Str)) (vars : List (Str × Str)),
      lookupStr vars "input".data = some inp →
      (∀ p ∈ ctx, p.1 ≠ "input".data) →
      lookupStr (ctx.foldl addContextEntry vars) "input".data = some inp := by
  intro ctx
  induction ctx with
  | nil => intro vars h _; exact h
  | cons p rest ih =>
    intro vars h hk
    simp only [List.foldl_cons]
    apply ih
    · rw [lookup_addContextEntry_ne vars p (hk p (List.mem_cons_self _ _))]
      exact h
    · intro q hq
      exact hk q (List.mem_cons_of_mem p hq)

/-- C2 counterexample: in the two-LLM echo chain executed on hello, the
second LLM node's resolved prompt (its template is the input placeholder) is
R:hello, the first node's output, which differs from the original
caller-supplied text hello, so the claim that input is bound to the original
caller-supplied text at every node is false. -/
theorem C2_counterexample :
    ((executeWorkflow echoEnv wfChain2 "hello".data "u".data
        ["openai".data]).2.map (fun st => st.input))
      = ["hello".data, "R:hello".data]
    ∧ "R:hello".data ≠ "hello".data := by
  exact ⟨rfl, by decide⟩

/-- C2 amended: the template variable set built before an LLM node's prompt
resolution binds input to the running text arriving at that node, which for
the second and later LLM nodes is the previous node's output, not the
original caller-supplied text.  First conjunct: buildTemplateVariables binds
input to its incoming-text argument whenever no context key shadows it.
Second conjunct: in the two-node echo chain the second node resolves its
input placeholder to the first node's output. -/
theorem C2_amended :
    (∀ (inp : Str) (ctx : List (Str × Str)),
        (∀ p ∈ ctx, p.1 ≠ "input".data) →
        lookupStr (buildTemplateVariables inp ctx) "input".data = some inp)
    ∧ ((executeWorkflow echoEnv wfChain2 "hello".data "u".data
          ["openai".data]).2.map (fun st => (st.input, st.output)))
        = [("hello".data, some "R:hello".data),
           ("R:hello".data, some "R:R:hello".data)] := by
  constructor
  · intro inp ctx h
    exact buildVars_foldl_input inp ctx _ (by simp [lookupStr]) h
  · rfl

/-- C2 witness for the amended theorem. -/
theorem C2_amended_witness :
    lookupStr (buildTemplateVariables "abc".data [("llm-1".data, "zzz".data)])
        "input".data = some "abc".data :=
  C2_amended.1 "abc".data [("llm-1".data, "zzz".data)] (by decide)

/-! ## Claim C1: an LLM step failure does not propagate -/

/-- An unregistered provider makes executeLLMNode return a failed step with
the not-registered message, zero cost and no output; the error is caught
inside the function, which returns normally. -/
theorem executeLLMNode_unregistered (env : Env) (registered : List Str)
    (node : WorkflowNode) (input : Str) (ctx : List (Str × Str)) (p : Str)
    (hp : node.provider = some p) (hreg : p ∉ registered) :
    executeLLMNode env registered node input ctx =
      { nodeId := node.id
        provider := p
        model := node.model.getD "gpt-4o-mini".data
        input := input
        output := none
        cost := 0
        status := .failed
        error := some (notRegisteredMsg (some p)) } := by
  simp only [executeLLMNode, hp]
  simp [hreg]

/-- After a failed LLM step whose node has an outgoing edge to an output
node, the walk returns normally with the incoming text as final output, the
failed step recorded and zero cost: the failure stops nothing. -/
theorem executeFromNode_failed_continues (env : Env) (registered : List Str)
    (nodes : List WorkflowNode) (edges : List WorkflowEdge) (fuel : Nat)
    (node : WorkflowNode) (input : Str) (ctx : List (Str × Str)) (p : Str)
    (ed : WorkflowEdge) (restE : List WorkflowEdge) (onode : WorkflowNode)
    (htype : node.type = "llm".data)
    (hp : node.provider = some p) (hreg : p ∉ registered)
    (hfilter : edges.filter (fun e => e.source = node.id) = ed :: restE)
    (hfind : nodes.find? (fun n => n.id = ed.target) = some onode)
    (hout : onode.type = "output".data) :
    ∃ st ctx2,
      executeFromNode env registered nodes edges (fuel + 1) node input ctx
        = .ok (⟨input, 0, [st]⟩, ctx2)
      ∧ st.status = .failed ∧ st.error = some (notRegisteredMsg (some p))
      ∧ st.output = none := by
  have hstep := executeLLMNode_unregistered env registered node input
    (mapSet ctx node.id input) p hp hreg
  refine ⟨executeLLMNode env registered node input (mapSet ctx node.id input),
    mapSet (mapSet ctx node.id input) node.id input, ?_, ?_, ?_, ?_⟩
  · simp only [executeFromNode, htype, if_true, hstep, hfilter, hfind, hout,
      chainOutput]
  · rw [hstep]
  · rw [hstep]
  · rw [hstep]

/-- A provider call that raises makes executeLLMNode return a failed step
recording the raised message, with no output and zero cost; the exception is
caught inside the function, which returns normally. -/
theorem executeLLMNode_raises (env : Env) (registered : List Str)
    (node : WorkflowNode) (input : Str) (ctx : List (Str × Str)) (p msg : Str)
    (hp : node.provider = some p) (hreg : p ∈ registered)
    (hexec : env.execute p (node.model.getD "gpt-4o-mini".data)
        (processPromptTemplate (node.prompt.getD ('{' :: "input".data ++ ['}']))
          (buildTemplateVariables input ctx)) = .error msg) :
    executeLLMNode env registered node input ctx =
      { nodeId := node.id
        provider := p
        model := node.model.getD "gpt-4o-mini".data
        input := processPromptTemplate
            (node.prompt.getD ('{' :: "input".data ++ ['}']))
            (buildTemplateVariables input ctx)
        output := none
        cost := 0
        status := .failed
        error := some msg } := by
  simp only [executeLLMNode, hp]
  rw [if_pos hreg, hexec]
  rfl

/-- After a step failed by a raising provider, too, the walk returns
normally with the incoming text as final output. -/
theorem executeFromNode_raises_continues (env : Env) (registered : List Str)
    (nodes : List WorkflowNode) (edges : List WorkflowEdge) (fuel : Nat)
    (node : WorkflowNode) (input : Str) (ctx : List (Str × Str)) (p msg : Str)
    (ed : WorkflowEdge) (restE : List WorkflowEdge) (onode : WorkflowNode)
    (htype : node.type = "llm".data)
    (hp : node.provider = some p) (hreg : p ∈ registered)
    (hexec : ∀ prompt, env.execute p (node.model.getD "gpt-4o-mini".data) prompt
        = .error msg)
    (hfilter : edges.filter (fun e => e.source = node.id) = ed :: restE)
    (hfind : nodes.find? (fun n => n.id = ed.target) = some onode)
    (hout : onode.type = "output".data) :
    ∃ st ctx2,
      executeFromNode env registered nodes edges (fuel + 1) node input ctx
        = .ok (⟨input, 0, [st]⟩, ctx2)
      ∧ st.status = .failed ∧ st.error = some msg ∧ st.output = none := by
  have hstep := executeLLMNode_raises env registered node input
    (mapSet ctx node.id input) p msg hp hreg (hexec _)
  refine ⟨executeLLMNode env registered node input (mapSet ctx node.id input),
    mapSet (mapSet ctx node.id input) node.id input, ?_, ?_, ?_, ?_⟩
  · simp only [executeFromNode, htype, if_true, hstep, hfilter, hfind, hout,
      chainOutput]
  · rw [hstep]
  · rw [hstep]
  · rw [hstep]

/-- The registration loop can only raise the three factory messages. -/
theorem registerAll_error_shape :
    ∀ (cfgs : List Str) (e : Str), registerAll cfgs = .error e →
      e = "Google Gemini provider not yet implemented".data
      ∨ e = "DeepSeek provider not yet implemented".data
      ∨ ∃ p, e = "Unsupported provider type: ".data ++ p := by
  intro cfgs
  induction cfgs with
  | nil =>
    intro e h
    simp [registerAll] at h
  | cons p rest ih =>
    intro e h
    simp only [registerAll] at h
    split_ifs at h with h1 h2 h3
    · cases hr : registerAll rest with
      | error e2 =>
        rw [hr] at h
        simp only [Except.map, Except.error.injEq] at h
        rw [← h]
        exact ih e2 hr
      | ok l =>
        rw [hr] at h
        simp [Except.map] at h
    · simp only [Except.error.injEq] at h
      exact Or.inl h.symm
    · simp only [Except.error.injEq] at h
      exact Or.inr (Or.inl h.symm)
    · simp only [Except.error.injEq] at h
      exact Or.inr (Or.inr ⟨p, h.symm⟩)

/-- The walk can only raise the dangling-target message or the
stack-exhaustion marker; a failed step never makes it raise. -/
theorem executeFromNode_error_shape (env : Env) (registered : List Str)
    (nodes : List WorkflowNode) (edges : List WorkflowEdge) :
    ∀ (fuel : Nat) (node : WorkflowNode) (input : Str)
      (ctx : List (Str × Str)) (e : Str),
      executeFromNode env registered nodes edges fuel node input ctx
        = .error e →
      (∃ t, e = "Next node ".data ++ t ++ " not found".data)
      ∨ e = "Maximum call stack size exceeded".data := by
  intro fuel
  induction fuel with
  | zero =>
    intro node input ctx e h
    simp only [executeFromNode, Except.error.injEq] at h
    exact Or.inr h.symm
  | succ f ih =>
    intro node input ctx e h
    simp only [executeFromNode] at h
    split at h
    · simp at h
    · split at h
      · simp only [Except.error.injEq] at h
        exact Or.inl ⟨_, h.symm⟩
      · split at h
        · simp at h
        · split at h
          · rename_i e2 heq
            simp only [Except.error.injEq] at h
            rw [← h]
            exact ih _ _ _ e2 heq
          · simp at h

/-- Only non-step errors fail a whole execution: every run either completes
with no record-level error, or fails with an error that is one of the
registration messages, the missing-input-node message, a
dangling-edge-target message, or the stack-exhaustion marker modelling the
divergent walk; step-level failures are absorbed into the step record and
never fail the record. -/
theorem executeWorkflow_error_shape (env : Env) (wf : Workflow)
    (inp uid : Str) (cfgs : List Str) :
    ((executeWorkflow env wf inp uid cfgs).1.status = .completed
      ∧ (executeWorkflow env wf inp uid cfgs).1.error = none)
    ∨ ((executeWorkflow env wf inp uid cfgs).1.status = .failed
      ∧ ∃ e, (executeWorkflow env wf inp uid cfgs).1.error = some e
        ∧ (e = "Workflow must have an input node".data
          ∨ (∃ t, e = "Next node ".data ++ t ++ " not found".data)
          ∨ e = "Maximum call stack size exceeded".data
          ∨ e = "Google Gemini provider not yet implemented".data
          ∨ e = "DeepSeek provider not yet implemented".data
          ∨ ∃ p, e = "Unsupported provider type: ".data ++ p)) := by
  simp only [executeWorkflow]
  split
  · rename_i e0 hreg
    refine Or.inr ⟨rfl, e0, rfl, ?_⟩
    rcases registerAll_error_shape cfgs e0 hreg with h | h | ⟨p, h⟩
    · exact Or.inr (Or.inr (Or.inr (Or.inl h)))
    · exact Or.inr (Or.inr (Or.inr (Or.inr (Or.inl h))))
    · exact Or.inr (Or.inr (Or.inr (Or.inr (Or.inr ⟨p, h⟩))))
  · split
    · exact Or.inr ⟨rfl, _, rfl, Or.inl rfl⟩
    · split
      · rename_i e1 hrun
        refine Or.inr ⟨rfl, e1, rfl, ?_⟩
        rcases executeFromNode_error_shape env _ wf.nodes wf.edges
            (walkFuel wf) _ inp [] e1 hrun with ⟨t, h⟩ | h
        · exact Or.inr (Or.inl ⟨t, h⟩)
        · exact Or.inr (Or.inr (Or.inl h))
      · exact Or.inl ⟨rfl, rfl⟩

/-- C1 counterexample: a workflow whose only LLM node references the
anthropic provider, executed with only openai configured, yields a record
with status completed and final output present (the unchanged input text),
while the step itself is recorded as failed with the missing-registration
message: the failure does not propagate to the execution, contradicting the
claim that such a run returns status failed with no final output. -/
theorem C1_counterexample :
    (executeWorkflow echoEnv wfAnth "hello".data "u".data
        ["openai".data]).1.status = ExecStatus.completed
    ∧ (executeWorkflow echoEnv wfAnth "hello".data "u".data
        ["openai".data]).1.outputResult = some "hello".data
    ∧ (executeWorkflow echoEnv wfAnth "hello".data "u".data
        ["openai".data]).1.error = none
    ∧ ((executeWorkflow echoEnv wfAnth "hello".data "u".data
        ["openai".data]).2.map (fun st => (st.status, st.error)))
        = [(StepStatus.failed,
            some (notRegisteredMsg (some "anthropic".data)))] :=
  ⟨rfl, rfl, rfl, rfl⟩

/-- C1 amended: when an LLM node's step fails -- whether its provider is
not registered or the provider call raises -- the step is recorded with
status failed, the identifying error message, no output and zero cost, but
the failure does not propagate: the walk continues past the failed node
carrying the prior running text, later nodes still execute, and
executeWorkflow returns status completed with the final output present.
Only non-step errors (no input node, a registration failure such as an
unsupported provider type, a dangling edge target, or a cyclic walk
exhausting the stack) fail the whole execution. -/
theorem C1_amended :
    (∀ (env : Env) (registered : List Str) (node : WorkflowNode)
        (input : Str) (ctx : List (Str × Str)) (p : Str),
        node.provider = some p → p ∉ registered →
        (executeLLMNode env registered node input ctx).status = .failed
        ∧ (executeLLMNode env registered node input ctx).error
            = some (notRegisteredMsg (some p))
        ∧ (executeLLMNode env registered node input ctx).output = none
        ∧ (executeLLMNode env registered node input ctx).cost = 0)
    ∧ (∀ (env : Env) (registered : List Str) (node : WorkflowNode)
        (input : Str) (ctx : List (Str × Str)) (p msg : Str),
        node.provider = some p → p ∈ registered →
        (∀ prompt, env.execute p (node.model.getD "gpt-4o-mini".data) prompt
            = .error msg) →
        (executeLLMNode env registered node input ctx).status = .failed
        ∧ (executeLLMNode env registered node input ctx).error = some msg
        ∧ (executeLLMNode env registered node input ctx).output = none
        ∧ (executeLLMNode env registered node input ctx).cost = 0)
    ∧ (∀ (env : Env) (registered : List Str) (nodes : List WorkflowNode)
        (edges : List WorkflowEdge) (fuel : Nat) (node : WorkflowNode)
        (input : Str) (ctx : List (Str × Str)) (p : Str)
        (ed : WorkflowEdge) (restE : List WorkflowEdge) (onode : WorkflowNode),
        node.type = "llm".data →
        node.provider = some p → p ∉ registered →
        edges.filter (fun e => e.source = node.id) = ed :: restE →
        nodes.find? (fun n => n.id = ed.target) = some onode →
        onode.type = "output".data →
        ∃ st ctx2,
          executeFromNode env registered nodes edges (fuel + 1) node input ctx
            = .ok (⟨input, 0, [st]⟩, ctx2)
          ∧ st.status = .failed
          ∧ st.error = some (notRegisteredMsg (some p))
          ∧ st.output = none)
    ∧ (∀ (env : Env) (registered : List Str) (nodes : List WorkflowNode)
        (edges : List WorkflowEdge) (fuel : Nat) (node : WorkflowNode)
        (input : Str) (ctx : List (Str × Str)) (p msg : Str)
        (ed : WorkflowEdge) (restE : List WorkflowEdge) (onode : WorkflowNode),
        node.type = "llm".data →
        node.provider = some p → p ∈ registered →
        (∀ prompt, env.execute p (node.model.getD "gpt-4o-mini".data) prompt
            = .error msg) →
        edges.filter (fun e => e.source = node.id) = ed :: restE →
        nodes.find? (fun n => n.id = ed.target) = some onode →
        onode.type = "output".data →
        ∃ st ctx2,
          executeFromNode env registered nodes edges (fuel + 1) node input ctx
            = .ok (⟨input, 0, [st]⟩, ctx2)
          ∧ st.status = .failed
          ∧ st.error = some msg
          ∧ st.output = none)
    ∧ ((executeWorkflow echoEnv wfAnthThenB "hello".data "u".data
          ["openai".data]).1.status = ExecStatus.completed
       ∧ (executeWorkflow echoEnv wfAnthThenB "hello".data "u".data
          ["openai".data]).1.outputResult = some "R:hello".data
       ∧ ((executeWorkflow echoEnv wfAnthThenB "hello".data "u".data
          ["openai".data]).2.map (fun st => st.status))
          = [StepStatus.failed, StepStatus.completed])
    ∧ ((executeWorkflow raiseEnv wfChain2 "hello".data "u".data
          ["openai".data]).1.status = ExecStatus.completed
       ∧ (executeWorkflow raiseEnv wfChain2 "hello".data "u".data
          ["openai".data]).1.outputResult = some "R:hello".data
       ∧ ((executeWorkflow raiseEnv wfChain2 "hello".data "u".data
          ["openai".data]).2.map (fun st => (st.status, st.error)))
          = [(StepStatus.failed, some "OpenAI execution failed: boom".data),
             (StepStatus.completed, none)])
    ∧ (∀ (env : Env) (wf : Workflow) (inp uid : Str) (cfgs : List Str),
        (executeWorkflow env wf inp uid cfgs).1.status = ExecStatus.failed →
        ∃ e, (executeWorkflow env wf inp uid cfgs).1.error = some e
          ∧ (e = "Workflow must have an input node".data
            ∨ (∃ t, e = "Next node ".data ++ t ++ " not found".data)
            ∨ e = "Maximum call stack size exceeded".data
            ∨ e = "Google Gemini provider not yet implemented".data
            ∨ e = "DeepSeek provider not yet implemented".data
            ∨ ∃ p, e = "Unsupported provider type: ".data ++ p)) := by
  refine ⟨?_, ?_, ?_, ?_, ⟨rfl, rfl, rfl⟩, ⟨rfl, rfl, rfl⟩, ?_⟩
  · intro env registered node input ctx p hp hreg
    rw [executeLLMNode_unregistered env registered node input ctx p hp hreg]
    exact ⟨rfl, rfl, rfl, rfl⟩
  · intro env registered node input ctx p msg hp hreg hexec
    rw [executeLLMNode_raises env registered node input ctx p msg hp hreg
      (hexec _)]
    exact ⟨rfl, rfl, rfl, rfl⟩
  · intro env registered nodes edges fuel node input ctx p ed restE onode
      htype hp hreg hfilter hfind hout
    exact executeFromNode_failed_continues env registered nodes edges fuel
      node input ctx p ed restE onode htype hp hreg hfilter hfind hout
  · intro env registered nodes edges fuel node input ctx p msg ed restE onode
      htype hp hreg hexec hfilter hfind hout
    exact executeFromNode_raises_continues env registered nodes edges fuel
      node input ctx p msg ed restE onode htype hp hreg hexec hfilter hfind
      hout
  · intro env wf inp uid cfgs hfail
    rcases executeWorkflow_error_shape env wf inp uid cfgs with
      ⟨hc, -⟩ | ⟨-, h⟩
    · exact absurd (hc.symm.trans hfail) (by decide)
    · exact h

/-- C1 witness for the amended theorem at concrete inputs: an unregistered
anthropic node, a registered but raising openai node, their walk
continuations, and a failed execution with a non-step error. -/
theorem C1_amended_witness :
    ((executeLLMNode echoEnv ["openai".data] llmAnth "hi".data []).status
        = .failed
      ∧ (executeLLMNode echoEnv ["openai".data] llmAnth "hi".data []).error
        = some (notRegisteredMsg (some "anthropic".data))
      ∧ (executeLLMNode echoEnv ["openai".data] llmAnth "hi".data []).output
        = none
      ∧ (executeLLMNode echoEnv ["openai".data] llmAnth "hi".data []).cost = 0)
    ∧ ((executeLLMNode raiseEnv ["openai".data] llm1 "hi".data []).status
        = .failed
      ∧ (executeLLMNode raiseEnv ["openai".data] llm1 "hi".data []).error
        = some "OpenAI execution failed: boom".data
      ∧ (executeLLMNode raiseEnv ["openai".data] llm1 "hi".data []).output
        = none
      ∧ (executeLLMNode raiseEnv ["openai".data] llm1 "hi".data []).cost = 0)
    ∧ (∃ st ctx2,
        executeFromNode echoEnv ["openai".data] wfAnth.nodes wfAnth.edges
            (0 + 1) llmAnth "hi".data []
          = .ok (⟨"hi".data, 0, [st]⟩, ctx2)
        ∧ st.status = .failed
        ∧ st.error = some (notRegisteredMsg (some "anthropic".data))
        ∧ st.output = none)
    ∧ (∃ st ctx2,
        executeFromNode raiseEnv ["openai".data] [llm1, outNode]
            [⟨"llm-1".data, "out".data⟩] (0 + 1) llm1 "hi".data []
          = .ok (⟨"hi".data, 0, [st]⟩, ctx2)
        ∧ st.status = .failed
        ∧ st.error = some "OpenAI execution failed: boom".data
        ∧ st.output = none)
    ∧ (∃ e, (executeWorkflow echoEnv ⟨"w".data, [outNode], []⟩ "x".data
            "u".data []).1.error = some e
        ∧ (e = "Workflow must have an input node".data
          ∨ (∃ t, e = "Next node ".data ++ t ++ " not found".data)
          ∨ e = "Maximum call stack size exceeded".data
          ∨ e = "Google Gemini provider not yet implemented".data
          ∨ e = "DeepSeek provider not yet implemented".data
          ∨ ∃ p, e = "Unsupported provider type: ".data ++ p)) :=
  ⟨C1_amended.1 echoEnv ["openai".data] llmAnth "hi".data []
      "anthropic".data rfl (by decide),
   C1_amended.2.1 raiseEnv ["openai".data] llm1 "hi".data []
      "openai".data "OpenAI execution failed: boom".data rfl (by decide)
      (fun _ => rfl),
   C1_amended.2.2.1 echoEnv ["openai".data] wfAnth.nodes wfAnth.edges 0
      llmAnth "hi".data [] "anthropic".data ⟨"llm-a".data, "out".data⟩ []
      outNode rfl rfl (by decide) (by decide) (by decide) rfl,
   C1_amended.2.2.2.1 raiseEnv ["openai".data] [llm1, outNode]
      [⟨"llm-1".data, "out".data⟩] 0 llm1 "hi".data [] "openai".data
      "OpenAI execution failed: boom".data ⟨"llm-1".data, "out".data⟩ []
      outNode rfl rfl (by decide) (fun _ => rfl) (by decide) (by decide) rfl,
   C1_amended.2.2.2.2.2.2 echoEnv ⟨"w".data, [outNode], []⟩ "x".data
      "u".data [] rfl⟩

/-! ## Claim C7: total cost additivity -/

/-- The walk's accumulated totalCost is the sum of the individual costs of
the steps it records. -/
theorem executeFromNode_cost (env : Env) (registered : List Str)
    (nodes : List WorkflowNode) (edges : List WorkflowEdge) :
    ∀ (fuel : Nat) (node : WorkflowNode) (input : Str)
      (ctx : List (Str × Str)) (r : WalkResult) (ctx2 : List (Str × Str)),
      executeFromNode env registered nodes edges fuel node input ctx
        = .ok (r, ctx2) →
      r.totalCost = (r.steps.map (fun st => st.cost)).sum := by
  intro fuel
  induction fuel with
  | zero =>
    intro node input ctx r ctx2 h
    exact absurd h (by simp [executeFromNode])
  | succ f ih =>
    intro node input ctx r ctx2 h
    simp only [executeFromNode] at h
    split at h
    · simp only [Except.ok.injEq, Prod.mk.injEq] at h
      obtain ⟨hr, -⟩ := h
      subst hr
      split <;> simp
    · split at h
      · exact absurd h (by simp)
      · split at h
        · simp only [Except.ok.injEq, Prod.mk.injEq] at h
          obtain ⟨hr, -⟩ := h
          subst hr
          split <;> simp
        · split at h
          · exact absurd h (by simp)
          · rename_i r2 ctx3 heq
            simp only [Except.ok.injEq, Prod.mk.injEq] at h
            obtain ⟨hr, -⟩ := h
            subst hr
            have hsub := ih _ _ _ _ _ heq
            split <;> simp [hsub]

/-- C7: for every execution the record's totalCost equals the sum of the
individual costs of all recorded ExecutionSteps (both on success and on the
failure paths, where no steps are recorded and the total is zero), and on
the three-LLM-node chain with stub costs 0.001, 0.002, 0.003 the total is
exactly 0.006. -/
theorem C7_total_cost :
    (∀ (env : Env) (wf : Workflow) (inp uid : Str) (cfgs : List Str),
        (executeWorkflow env wf inp uid cfgs).1.totalCost
          = ((executeWorkflow env wf inp uid cfgs).2.map
              (fun st => st.cost)).sum)
    ∧ (executeWorkflow costEnv wfChain3 "hello".data "u".data
        ["openai".data]).1.totalCost = 6/1000
    ∧ ((executeWorkflow costEnv wfChain3 "hello".data "u".data
        ["openai".data]).2.map (fun st => st.cost))
        = [1/1000, 2/1000, 3/1000] := by
  refine ⟨?_, ?_, rfl⟩
  · intro env wf inp uid cfgs
    simp only [executeWorkflow]
    split
    · simp
    · split
      · simp
      · split
        · simp
        · rename_i result ctx2 heq
          exact executeFromNode_cost _ _ _ _ _ _ _ _ _ _ heq
  · have h : (executeWorkflow costEnv wfChain3 "hello".data "u".data
        ["openai".data]).1.totalCost
        = 0 + (1/1000 + (2/1000 + 3/1000)) := rfl
    rw [h]
    norm_num

/-! ## Claim C10: an empty successful output keeps the prior running text -/

/-- A successful LLM step: with a registered provider whose call returns a
response, executeLLMNode records the processed prompt, the response content
and cost, and completes. -/
theorem executeLLMNode_ok (env : Env) (registered : List Str)
    (node : WorkflowNode) (input : Str) (ctx : List (Str × Str)) (p : Str)
    (resp : LLMResponse)
    (hp : node.provider = some p) (hreg : p ∈ registered)
    (hexec : env.execute p (node.model.getD "gpt-4o-mini".data)
        (processPromptTemplate (node.prompt.getD ('{' :: "input".data ++ ['}']))
          (buildTemplateVariables input ctx)) = .ok resp) :
    executeLLMNode env registered node input ctx =
      { nodeId := node.id
        provider := p
        model := node.model.getD "gpt-4o-mini".data
        input := processPromptTemplate
            (node.prompt.getD ('{' :: "input".data ++ ['}']))
            (buildTemplateVariables input ctx)
        output := some resp.content
        cost := resp.cost
        status := .completed
        error := none } := by
  simp only [executeLLMNode, hp]
  rw [if_pos hreg, hexec]
  rfl

/-- C10: an LLM step that completes with the empty string as output leaves
the running text and the node's context entry at the previous running text
(the engine treats the falsy output as keep the prior text).  First
conjunct: general statement for a terminal llm node whose provider returns
empty content at some cost.  Remaining conjuncts: in the chain whose first
node answers the empty string, the final output and the second node's
received text both equal what the first node received. -/
theorem C10_empty_output :
    (∀ (env : Env) (registered : List Str) (nodes : List WorkflowNode)
        (edges : List WorkflowEdge) (fuel : Nat) (node : WorkflowNode)
        (input : Str) (ctx : List (Str × Str)) (p : Str) (c : Rat),
        node.type = "llm".data →
        node.provider = some p → p ∈ registered →
        (∀ prompt, env.execute p (node.model.getD "gpt-4o-mini".data) prompt
            = .ok ⟨[], c⟩) →
        edges.filter (fun e => e.source = node.id) = [] →
        ∃ st ctx2,
          executeFromNode env registered nodes edges (fuel + 1) node input ctx
            = .ok (⟨input, c, [st]⟩, ctx2)
          ∧ st.status = .completed ∧ st.output = some []
          ∧ lookupStr ctx2 node.id = some input)
    ∧ (executeWorkflow emptyThenEchoEnv wfChain2 "hello".data "u".data
        ["openai".data]).1.outputResult = some "R:hello".data
    ∧ ((executeWorkflow emptyThenEchoEnv wfChain2 "hello".data "u".data
        ["openai".data]).2.map (fun st => (st.input, st.output, st.status)))
        = [("hello".data, some ([] : Str), StepStatus.completed),
           ("hello".data, some "R:hello".data, StepStatus.completed)] := by
  refine ⟨?_, rfl, rfl⟩
  intro env registered nodes edges fuel node input ctx p c htype hp hreg hexec hfil
  have hstep := executeLLMNode_ok env registered node input
    (mapSet ctx node.id input) p ⟨[], c⟩ hp hreg (hexec _)
  refine ⟨executeLLMNode env registered node input (mapSet ctx node.id input),
    mapSet (mapSet ctx node.id input) node.id
      (chainOutput (executeLLMNode env registered node input
        (mapSet ctx node.id input)).output input), ?_, ?_, ?_, ?_⟩
  · simp only [executeFromNode, htype, if_true, hfil]
    rw [hstep]
    simp [chainOutput]
  · rw [hstep]
  · rw [hstep]
  · rw [hstep]
    simp only [chainOutput]
    simp [lookupStr_mapSet_self]

/-- C10 witness for the general conjunct. -/
theorem C10_empty_output_witness :
    ∃ st ctx2,
      executeFromNode emptyThenEchoEnv ["openai".data] [] [] (0 + 1) llm1
          "hi".data []
        = .ok (⟨"hi".data, 1/1000, [st]⟩, ctx2)
      ∧ st.status = .completed ∧ st.output = some []
      ∧ lookupStr ctx2 llm1.id = some "hi".data :=
  C10_empty_output.1 emptyThenEchoEnv ["openai".data] [] [] 0 llm1 "hi".data
    [] "openai".data (1/1000) rfl rfl (by decide) (fun _ => rfl) rfl

/-! ## Claim C8: cost calculation falls back on unknown models -/

/-- C8: calculateCost is total for every model string: a model present in
the static table is charged at its table prices, and any other model string
falls back to the defined default entry (gpt-3.5-turbo for OpenAI,
claude-3-haiku-20240307 for Anthropic), in both cases returning
promptTokens/1000 times the input price plus completionTokens/1000 times
the output price; the two fallback keys are shown to be defined table
entries. -/
theorem C8_cost_fallback :
    (∀ (model : Str) (pt ct : Rat),
        (priceLookup OpenAIProvider.pricing model = none →
          OpenAIProvider.calculateCost model pt ct
            = pt / 1000 * (15/10000) + ct / 1000 * (2/1000))
        ∧ (∀ p, priceLookup OpenAIProvider.pricing model = some p →
          OpenAIProvider.calculateCost model pt ct
            = pt / 1000 * p.inputPrice + ct / 1000 * p.outputPrice))
    ∧ priceLookup OpenAIProvider.pricing "gpt-3.5-turbo".data
        = some ⟨15/10000, 2/1000⟩
    ∧ (∀ (model : Str) (pt ct : Rat),
        (priceLookup AnthropicProvider.pricing model = none →
          AnthropicProvider.calculateCost model pt ct
            = pt / 1000 * (25/100000) + ct / 1000 * (125/100000))
        ∧ (∀ p, priceLookup AnthropicProvider.pricing model = some p →
          AnthropicProvider.calculateCost model pt ct
            = pt / 1000 * p.inputPrice + ct / 1000 * p.outputPrice))
    ∧ priceLookup AnthropicProvider.pricing "claude-3-haiku-20240307".data
        = some ⟨25/100000, 125/100000⟩ := by
  refine ⟨?_, rfl, ?_, rfl⟩
  · intro model pt ct
    constructor
    · intro h
      unfold OpenAIProvider.calculateCost
      rw [h]
      rfl
    · intro p h
      unfold OpenAIProvider.calculateCost
      rw [h]
  · intro model pt ct
    constructor
    · intro h
      unfold AnthropicProvider.calculateCost
      rw [h]
      rfl
    · intro p h
      unfold AnthropicProvider.calculateCost
      rw [h]

/-- C8 witness: an unknown model string is charged at the fallback prices;
a known model at its own prices. -/
theorem C8_cost_fallback_witness :
    OpenAIProvider.calculateCost "o9-mega".data 2000 500
        = 2000 / 1000 * (15/10000) + 500 / 1000 * (2/1000)
    ∧ AnthropicProvider.calculateCost "claude-9".data 1000 1000
        = 1000 / 1000 * (25/100000) + 1000 / 1000 * (125/100000)
    ∧ OpenAIProvider.calculateCost "gpt-4o".data 1000 1000
        = 1000 / 1000 * (⟨5/1000, 15/1000⟩ : ModelPricing).inputPrice
          + 1000 / 1000 * (⟨5/1000, 15/1000⟩ : ModelPricing).outputPrice :=
  ⟨((C8_cost_fallback.1 "o9-mega".data 2000 500).1 rfl),
   ((C8_cost_fallback.2.2.1 "claude-9".data 1000 1000).1 rfl),
   ((C8_cost_fallback.1 "gpt-4o".data 1000 1000).2 ⟨5/1000, 15/1000⟩ rfl)⟩

/-! ## Workflow validation: error membership characterization -/

theorem errs_distinct :
    errNoInput ≠ errManyInput ∧ errNoInput ≠ errNoOutput
    ∧ errNoInput ≠ errCycles ∧ errManyInput ≠ errNoOutput
    ∧ errManyInput ≠ errCycles ∧ errNoOutput ≠ errCycles := by
  refine ⟨?_, ?_, ?_, ?_, ?_, ?_⟩ <;> decide

theorem errDisconnected_ne (wf : Workflow) :
    errDisconnected wf ≠ errNoInput ∧ errDisconnected wf ≠ errManyInput
    ∧ errDisconnected wf ≠ errNoOutput ∧ errDisconnected wf ≠ errCycles := by
  have ht : errDisconnected wf
      = 'D' :: ("isconnected nodes found: ".data
          ++ joinIds ((disconnectedNodes wf).map (fun n => n.id))) := rfl
  refine ⟨?_, ?_, ?_, ?_⟩
  · intro h
    rw [ht, show errNoInput
        = 'W' :: "orkflow must have at least one input node".data from rfl] at h
    injection h with h1 _
    exact absurd h1 (by decide)
  · intro h
    rw [ht, show errManyInput
        = 'W' :: "orkflow can only have one input node".data from rfl] at h
    injection h with h1 _
    exact absurd h1 (by decide)
  · intro h
    rw [ht, show errNoOutput
        = 'W' :: "orkflow must have at least one output node".data from rfl] at h
    injection h with h1 _
    exact absurd h1 (by decide)
  · intro h
    rw [ht, show errCycles
        = 'W' :: "orkflow contains cycles".data from rfl] at h
    injection h with h1 _
    exact absurd h1 (by decide)

set_option maxHeartbeats 1000000 in
/-- Membership in validateWorkflow's error list, characterized by the four
independent checks. -/
theorem mem_errors_iff (wf : Workflow) (e : Str) :
    e ∈ (validateWorkflow wf).errors ↔
      ((wf.nodes.filter (fun n => n.type = "input".data)).length = 0
          ∧ e = errNoInput)
      ∨ (¬ ((wf.nodes.filter (fun n => n.type = "input".data)).length = 0)
          ∧ (wf.nodes.filter (fun n => n.type = "input".data)).length > 1
          ∧ e = errManyInput)
      ∨ ((wf.nodes.filter (fun n => n.type = "output".data)).length = 0
          ∧ e = errNoOutput)
      ∨ ((disconnectedNodes wf).length > 0 ∧ e = errDisconnected wf)
      ∨ (hasCycles wf.nodes wf.edges = true ∧ e = errCycles) := by
  simp only [validateWorkflow]
  split_ifs <;>
    simp only [List.mem_append, List.mem_singleton, List.not_mem_nil,
      List.mem_cons, or_false, false_or, List.nil_append, List.append_nil] <;>
    tauto

theorem disconnected_pos_iff (wf : Workflow) :
    (disconnectedNodes wf).length > 0
      ↔ (wf.nodes.length > 1
          ∧ ∃ n ∈ wf.nodes, ¬ (n.id ∈ connectedIds wf.edges)) := by
  constructor
  · intro h
    obtain ⟨x, hx⟩ := List.exists_mem_of_length_pos h
    rw [disconnectedNodes, List.mem_filter] at hx
    obtain ⟨hxl, hp⟩ := hx
    simp only [decide_eq_true_eq] at hp
    exact ⟨hp.2, ⟨x, hxl, hp.1⟩⟩
  · rintro ⟨hlen, n, hn, hmem⟩
    have hmemf : n ∈ disconnectedNodes wf := by
      rw [disconnectedNodes, List.mem_filter]
      refine ⟨hn, ?_⟩
      simp only [decide_eq_true_eq]
      exact ⟨hmem, hlen⟩
    exact List.length_pos.mpr (List.ne_nil_of_mem hmemf)

theorem validate_isValid_eq (wf : Workflow) :
    (validateWorkflow wf).isValid = (validateWorkflow wf).errors.isEmpty := rfl

/-- C5: validateWorkflow runs all of its checks independently and reports
the union of the failing checks' messages: the no-input message exactly when
there is no input node, the distinct too-many message exactly when there is
more than one, the no-output message exactly when there is no output node,
the disconnected-nodes message exactly when the workflow has more than one
node and some node appears in no edge; every reported error is one of the
five check messages, and isValid is false exactly when some check fails. -/
theorem C5_validation (wf : Workflow) :
    ((validateWorkflow wf).isValid = true ↔ (validateWorkflow wf).errors = [])
    ∧ (errNoInput ∈ (validateWorkflow wf).errors
        ↔ (wf.nodes.filter (fun n => n.type = "input".data)).length = 0)
    ∧ (errManyInput ∈ (validateWorkflow wf).errors
        ↔ (wf.nodes.filter (fun n => n.type = "input".data)).length > 1)
    ∧ (errNoOutput ∈ (validateWorkflow wf).errors
        ↔ (wf.nodes.filter (fun n => n.type = "output".data)).length = 0)
    ∧ (errDisconnected wf ∈ (validateWorkflow wf).errors
        ↔ (wf.nodes.length > 1
            ∧ ∃ n ∈ wf.nodes, ¬ (n.id ∈ connectedIds wf.edges)))
    ∧ (∀ e ∈ (validateWorkflow wf).errors,
        e = errNoInput ∨ e = errManyInput ∨ e = errNoOutput
        ∨ e = errDisconnected wf ∨ e = errCycles)
    ∧ ((validateWorkflow wf).isValid = false
        ↔ ((wf.nodes.filter (fun n => n.type = "input".data)).length = 0
          ∨ (wf.nodes.filter (fun n => n.type = "input".data)).length > 1
          ∨ (wf.nodes.filter (fun n => n.type = "output".data)).length = 0
          ∨ (wf.nodes.length > 1
              ∧ ∃ n ∈ wf.nodes, ¬ (n.id ∈ connectedIds wf.edges))
          ∨ hasCycles wf.nodes wf.edges = true)) := by
  obtain ⟨d1, d2, d3, d4⟩ := errDisconnected_ne wf
  obtain ⟨e1, e2, e3, e4, e5, e6⟩ := errs_distinct
  have hvalid : (validateWorkflow wf).isValid = true
      ↔ (validateWorkflow wf).errors = [] := by
    rw [validate_isValid_eq]
    exact List.isEmpty_iff
  refine ⟨hvalid, ?_, ?_, ?_, ?_, ?_, ?_⟩
  · rw [mem_errors_iff]
    simp [e1, e2, e3, Ne.symm d1]
  · rw [mem_errors_iff]
    constructor
    · rintro (⟨_, heq⟩ | ⟨_, h, _⟩ | ⟨_, heq⟩ | ⟨_, heq⟩ | ⟨_, heq⟩)
      · exact absurd heq (Ne.symm e1)
      · exact h
      · exact absurd heq e4
      · exact absurd heq (Ne.symm d2)
      · exact absurd heq e5
    · intro h
      exact Or.inr (Or.inl ⟨by omega, h, rfl⟩)
  · rw [mem_errors_iff]
    simp [Ne.symm e2, Ne.symm e4, Ne.symm d3, e6]
  · rw [mem_errors_iff]
    simp [d1, d2, d3, d4]
    rw [← disconnected_pos_iff]
  · intro e he
    rw [mem_errors_iff] at he
    rcases he with ⟨_, h⟩ | ⟨_, _, h⟩ | ⟨_, h⟩ | ⟨_, h⟩ | ⟨_, h⟩ <;> tauto
  · constructor
    · intro hfalse
      have hne : (validateWorkflow wf).errors ≠ [] := by
        intro hnil
        rw [hvalid.mpr hnil] at hfalse
        exact absurd hfalse (by decide)
      obtain ⟨e, he⟩ := List.exists_mem_of_ne_nil _ hne
      rw [mem_errors_iff] at he
      rcases he with ⟨h, _⟩ | ⟨_, h, _⟩ | ⟨h, _⟩ | ⟨h, _⟩ | ⟨h, _⟩
      · exact Or.inl h
      · exact Or.inr (Or.inl h)
      · exact Or.inr (Or.inr (Or.inl h))
      · exact Or.inr (Or.inr (Or.inr (Or.inl ((disconnected_pos_iff wf).mp h))))
      · exact Or.inr (Or.inr (Or.inr (Or.inr h)))
    · intro hc
      have hne : (validateWorkflow wf).errors ≠ [] := by
        have hex : ∃ e, e ∈ (validateWorkflow wf).errors := by
          rcases hc with h | h | h | h | h
          · exact ⟨errNoInput, (mem_errors_iff wf _).mpr (Or.inl ⟨h, rfl⟩)⟩
          · exact ⟨errManyInput, (mem_errors_iff wf _).mpr
              (Or.inr (Or.inl ⟨by omega, h, rfl⟩))⟩
          · exact ⟨errNoOutput, (mem_errors_iff wf _).mpr
              (Or.inr (Or.inr (Or.inl ⟨h, rfl⟩)))⟩
          · exact ⟨errDisconnected wf, (mem_errors_iff wf _).mpr
              (Or.inr (Or.inr (Or.inr (Or.inl
                ⟨(disconnected_pos_iff wf).mpr h, rfl⟩))))⟩
          · exact ⟨errCycles, (mem_errors_iff wf _).mpr
              (Or.inr (Or.inr (Or.inr (Or.inr ⟨h, rfl⟩))))⟩
        obtain ⟨e, he⟩ := hex
        exact List.ne_nil_of_mem he
      cases hval : (validateWorkflow wf).isValid
      · rfl
      · exact absurd (hvalid.mp hval) hne

/-- C5 witness: a workflow violating two checks at once reports both
messages together and is invalid. -/
theorem C5_validation_witness :
    errNoInput ∈ (validateWorkflow ⟨"w".data, [bareNode "A".data], []⟩).errors
    ∧ errNoOutput ∈ (validateWorkflow ⟨"w".data, [bareNode "A".data], []⟩).errors
    ∧ (validateWorkflow ⟨"w".data, [bareNode "A".data], []⟩).isValid = false :=
  ⟨(C5_validation _).2.1.mpr (by decide),
   (C5_validation _).2.2.2.1.mpr (by decide),
   (C5_validation _).2.2.2.2.2.2.mpr (Or.inl (by decide))⟩

/-! ## Claim C6: cycle detection

The mathematical notions the claim quantifies over: a directed step along
the edge list, and reachability of a directed cycle via outgoing edges. -/

/-- One directed step along the edge list. -/
def edgeStep (edges : List WorkflowEdge) (a b : Str) : Prop :=
  ∃ e ∈ edges, e.source = a ∧ e.target = b

/-- x can reach (possibly in zero steps) some node lying on a directed
cycle. -/
def ReachesCycle (edges : List WorkflowEdge) (x : Str) : Prop :=
  ∃ c, Relation.ReflTransGen (edgeStep edges) x c
    ∧ Relation.TransGen (edgeStep edges) c c

/-- The step function of the inner fold of hasCycleUtil, named for the
proofs. -/
def cycleFoldStep (edges : List WorkflowEdge) (fuel : Nat)
    (acc : Bool × List Str × List Str) (e : WorkflowEdge) :
    Bool × List Str × List Str :=
  match acc with
  | (true, v, r) => (true, v, r)
  | (false, v, r) => hasCycleUtil edges fuel e.target v r

/-- The step function of the outer loop of hasCycles, named for the
proofs. -/
def nodesFoldStep (edges : List WorkflowEdge) (fuel : Nat)
    (acc : Bool × List Str × List Str) (n : WorkflowNode) :
    Bool × List Str × List Str :=
  match acc with
  | (true, v, r) => (true, v, r)
  | (false, v, r) => hasCycleUtil edges fuel n.id v r

theorem hasCycleUtil_succ (edges : List WorkflowEdge) (fuel : Nat)
    (nodeId : Str) (visited recStack : List Str) :
    hasCycleUtil edges (fuel + 1) nodeId visited recStack =
      if nodeId ∈ recStack then (true, visited, recStack)
      else if nodeId ∈ visited then (false, visited, recStack)
      else
        match (edges.filter (fun e => e.source = nodeId)).foldl
            (cycleFoldStep edges fuel)
            (false, nodeId :: visited, nodeId :: recStack) with
        | (true, v, r) => (true, v, r)
        | (false, v, r) => (false, v, r.erase nodeId) := rfl

theorem hasCycles_eq (nodes : List WorkflowNode) (edges : List WorkflowEdge) :
    hasCycles nodes edges
      = (nodes.foldl
          (nodesFoldStep edges (nodes.length + edges.length + 1))
          (false, ([] : List Str), ([] : List Str))).1 := rfl

theorem cycleFold_true (edges : List WorkflowEdge) (fuel : Nat)
    (es : List WorkflowEdge) (v r : List Str) :
    es.foldl (cycleFoldStep edges fuel) (true, v, r) = (true, v, r) := by
  induction es with
  | nil => rfl
  | cons e rest ih => simp [List.foldl_cons, cycleFoldStep, ih]

theorem nodesFold_true (edges : List WorkflowEdge) (fuel : Nat)
    (ns : List WorkflowNode) (v r : List Str) :
    ns.foldl (nodesFoldStep edges fuel) (true, v, r) = (true, v, r) := by
  induction ns with
  | nil => rfl
  | cons n rest ih => simp [List.foldl_cons, nodesFoldStep, ih]

/-- A call returning false restores the recursion stack it was given, as the
source's recursionStack.delete at the end of hasCycleUtil does. -/
theorem recRestore (edges : List WorkflowEdge) :
    ∀ fuel n v r v2 r2,
      hasCycleUtil edges fuel n v r = (false, v2, r2) → r2 = r := by
  intro fuel
  induction fuel with
  | zero =>
    intro n v r v2 r2 h
    simp only [hasCycleUtil, Prod.mk.injEq] at h
    exact h.2.2.symm
  | succ f ih =>
    intro n v r v2 r2 h
    rw [hasCycleUtil_succ] at h
    by_cases hr : n ∈ r
    · simp [hr] at h
    · by_cases hv : n ∈ v
      · simp only [hr, if_false, hv, if_true, Prod.mk.injEq] at h
        exact h.2.2.symm
      · simp only [hr, if_false, hv] at h
        have foldlem : ∀ (es : List WorkflowEdge) (v0 r0 v3 r3 : List Str),
            es.foldl (cycleFoldStep edges f) (false, v0, r0) = (false, v3, r3) →
            r3 = r0 := by
          intro es
          induction es with
          | nil =>
            intro v0 r0 v3 r3 hf
            simp only [List.foldl_nil, Prod.mk.injEq] at hf
            exact hf.2.2.symm
          | cons e rest ihe =>
            intro v0 r0 v3 r3 hf
            rw [List.foldl_cons] at hf
            rcases hcall : hasCycleUtil edges f e.target v0 r0 with ⟨b1, v1, r1⟩
            cases b1 with
            | true =>
              rw [show cycleFoldStep edges f (false, v0, r0) e
                  = (true, v1, r1) from by
                    simp [cycleFoldStep, hcall]] at hf
              rw [cycleFold_true] at hf
              simp at hf
            | false =>
              rw [show cycleFoldStep edges f (false, v0, r0) e
                  = (false, v1, r1) from by
                    simp [cycleFoldStep, hcall]] at hf
              have h1 : r1 = r0 := ih e.target v0 r0 v1 r1 hcall
              rw [h1] at hf
              exact ihe v1 r0 v3 r3 hf
        rcases hfold : (edges.filter (fun e => e.source = n)).foldl
            (cycleFoldStep edges f) (false, n :: v, n :: r) with ⟨b3, v3, r3⟩
        rw [hfold] at h
        cases b3 with
        | true => simp at h
        | false =>
          simp only [Prod.mk.injEq] at h
          have h3 : r3 = n :: r := foldlem _ _ _ _ _ hfold
          rw [← h.2.2, h3, List.erase_cons_head]

/-- The recursion stack read head-first is a reversed edge path: each
element was pushed by a call made along an edge from the element below it. -/
def stackChain (edges : List WorkflowEdge) (r : List Str) : Prop :=
  List.Chain' (fun a b => edgeStep edges b a) r

/-- The relation between the recursion stack and the node a call is made
on: the top of the stack (when any) has an edge to the node. -/
def callOk (edges : List WorkflowEdge) : List Str → Str → Prop
  | [], _ => True
  | t :: _, n => edgeStep edges t n

theorem chainReach (edges : List WorkflowEdge) :
    ∀ (rest : List Str) (t n : Str), stackChain edges (t :: rest) →
      n ∈ t :: rest → Relation.ReflTransGen (edgeStep edges) n t := by
  intro rest
  induction rest with
  | nil =>
    intro t n _ hm
    simp only [List.mem_singleton] at hm
    subst hm
    exact Relation.ReflTransGen.refl
  | cons t2 rest2 ih =>
    intro t n hc hm
    rcases List.mem_cons.mp hm with h | h
    · subst h
      exact Relation.ReflTransGen.refl
    · have hcc := List.chain'_cons.mp hc
      exact Relation.ReflTransGen.tail (ih t2 n hcc.2 h) hcc.1

theorem cycle_of_mem_stack (edges : List WorkflowEdge) {r : List Str}
    {n : Str} (hc : stackChain edges r) (hca : callOk edges r n)
    (hmem : n ∈ r) : ∃ c, Relation.TransGen (edgeStep edges) c c := by
  cases r with
  | nil => simp at hmem
  | cons t rest =>
    have hreach := chainReach edges rest t n hc hmem
    exact ⟨n, Relation.TransGen.tail' hreach hca⟩

theorem chainCons (edges : List WorkflowEdge) {r : List Str} {n : Str}
    (hc : stackChain edges r) (hca : callOk edges r n) :
    stackChain edges (n :: r) := by
  cases r with
  | nil => exact List.chain'_singleton _
  | cons t rest => exact List.chain'_cons.mpr ⟨hca, hc⟩

/-- Soundness of the depth-first search: a true answer exhibits a directed
cycle. -/
theorem soundUtil (edges : List WorkflowEdge) :
    ∀ fuel n v r, stackChain edges r → callOk edges r n →
      (hasCycleUtil edges fuel n v r).1 = true →
      ∃ c, Relation.TransGen (edgeStep edges) c c := by
  intro fuel
  induction fuel with
  | zero =>
    intro n v r _ _ h
    simp [hasCycleUtil] at h
  | succ f ih =>
    intro n v r hc hca h
    rw [hasCycleUtil_succ] at h
    by_cases hr : n ∈ r
    · exact cycle_of_mem_stack edges hc hca hr
    · by_cases hv : n ∈ v
      · simp [hr, hv] at h
      · simp only [hr, if_false, hv] at h
        have hchain2 : stackChain edges (n :: r) := chainCons edges hc hca
        have foldlem : ∀ (es : List WorkflowEdge) (v0 : List Str),
            (∀ e ∈ es, e ∈ edges ∧ e.source = n) →
            (es.foldl (cycleFoldStep edges f) (false, v0, n :: r)).1 = true →
            ∃ c, Relation.TransGen (edgeStep edges) c c := by
          intro es
          induction es with
          | nil =>
            intro v0 _ hf
            simp at hf
          | cons e rest ihe =>
            intro v0 hmem hf
            rw [List.foldl_cons] at hf
            rcases hcall : hasCycleUtil edges f e.target v0 (n :: r)
              with ⟨b1, v1, r1⟩
            have hcaE : callOk edges (n :: r) e.target := by
              obtain ⟨heE, hsE⟩ := hmem e (List.mem_cons_self _ _)
              exact ⟨e, heE, hsE, rfl⟩
            cases b1 with
            | true =>
              exact ih e.target v0 (n :: r) hchain2 hcaE
                (by rw [hcall])
            | false =>
              rw [show cycleFoldStep edges f (false, v0, n :: r) e
                  = (false, v1, r1) from by simp [cycleFoldStep, hcall]] at hf
              have h1 : r1 = n :: r := recRestore edges f e.target v0 _ v1 r1 hcall
              rw [h1] at hf
              exact ihe v1 (fun q hq => hmem q (List.mem_cons_of_mem e hq)) hf
        rcases hfold : (edges.filter (fun e => e.source = n)).foldl
            (cycleFoldStep edges f) (false, n :: v, n :: r) with ⟨b3, v3, r3⟩
        rw [hfold] at h
        cases b3 with
        | false => simp at h
        | true =>
          apply foldlem (edges.filter (fun e => e.source = n)) (n :: v)
          · intro e he
            have := List.mem_filter.mp he
            exact ⟨this.1, by simpa using this.2⟩
          · rw [hfold]
    
/-- Soundness of hasCycles. -/
theorem hasCycles_sound (nodes : List WorkflowNode)
    (edges : List WorkflowEdge) :
    hasCycles nodes edges = true →
    ∃ c, Relation.TransGen (edgeStep edges) c c := by
  rw [hasCycles_eq]
  have foldlem : ∀ (ns : List WorkflowNode) (v : List Str),
      (ns.foldl (nodesFoldStep edges (nodes.length + edges.length + 1))
        (false, v, ([] : List Str))).1 = true →
      ∃ c, Relation.TransGen (edgeStep edges) c c := by
    intro ns
    induction ns with
    | nil =>
      intro v h
      simp at h
    | cons nd rest ihn =>
      intro v h
      rw [List.foldl_cons] at h
      rcases hcall : hasCycleUtil edges (nodes.length + edges.length + 1)
          nd.id v [] with ⟨b1, v1, r1⟩
      cases b1 with
      | true =>
        exact soundUtil edges _ nd.id v [] List.chain'_nil trivial
          (by rw [hcall])
      | false =>
        rw [show nodesFoldStep edges (nodes.length + edges.length + 1)
            (false, v, []) nd = (false, v1, r1) from by
              simp [nodesFoldStep, hcall]] at h
        have h1 : r1 = [] := recRestore edges _ nd.id v [] v1 r1 hcall
        rw [h1] at h
        exact ihn v1 h
  exact foldlem nodes []

/-- A node all of whose successors cannot reach a cycle cannot reach one
itself. -/
theorem safe_of_children (edges : List WorkflowEdge) {n : Str}
    (h : ∀ t, edgeStep edges n t → ¬ ReachesCycle edges t) :
    ¬ ReachesCycle edges n := by
  rintro ⟨c, hrt, hcyc⟩
  rcases Relation.ReflTransGen.cases_head hrt with heq | ⟨t, hstep, hrt2⟩
  · subst heq
    obtain ⟨t, hstep, hrt3⟩ := Relation.TransGen.head'_iff.mp hcyc
    exact h t hstep ⟨n, hrt3, hcyc⟩
  · exact h t hstep ⟨c, hrt2, hcyc⟩

/-- Invariant of the search: a visited node off the recursion stack cannot
reach a cycle. -/
def SafeV (edges : List WorkflowEdge) (v r : List Str) : Prop :=
  ∀ x ∈ v, x ∉ r → ¬ ReachesCycle edges x

/-- Every id the search can ever be called on. -/
def idUniverse (nodes : List WorkflowNode) (edges : List WorkflowEdge) :
    List Str :=
  nodes.map (fun n => n.id) ++ edges.map (fun e => e.target)

theorem nodup_length_le {r U : List Str} (hnd : r.Nodup)
    (hsub : ∀ x ∈ r, x ∈ U) : r.length ≤ U.dedup.length := by
  have h1 : r.toFinset.card = r.length := List.toFinset_card_of_nodup hnd
  have h2 : r.toFinset ⊆ U.toFinset := by
    intro a ha
    rw [List.mem_toFinset] at ha ⊢
    exact hsub a ha
  have h3 := Finset.card_le_card h2
  rw [h1, List.card_toFinset] at h3
  exact h3

theorem false_not_mem_stack (edges : List WorkflowEdge) (f : Nat) (t : Str)
    (v r : List Str) (v1 r1 : List Str)
    (h : hasCycleUtil edges (f + 1) t v r = (false, v1, r1)) : t ∉ r := by
  intro hmem
  rw [hasCycleUtil_succ] at h
  simp [hmem] at h

/-- Post-condition of a false-returning call with adequate fuel: the node is
visited, the visited set only grows, and every visited node off the given
stack is safe. -/
theorem utilFalsePost (nodes : List WorkflowNode) (edges : List WorkflowEdge) :
    ∀ fuel n v r,
      n ∈ idUniverse nodes edges →
      r.Nodup →
      (∀ x ∈ r, x ∈ idUniverse nodes edges) →
      (∀ x ∈ r, x ∈ v) →
      SafeV edges v r →
      (idUniverse nodes edges).dedup.length + 1 ≤ fuel + r.length →
      ∀ v2 r2, hasCycleUtil edges fuel n v r = (false, v2, r2) →
        (∀ x ∈ v, x ∈ v2) ∧ n ∈ v2 ∧ SafeV edges v2 r := by
  intro fuel
  induction fuel with
  | zero =>
    intro n v r hnU hnd hrU hrv hsafe hfuel v2 r2 h
    exfalso
    have hle := nodup_length_le hnd hrU
    omega
  | succ f ih =>
    intro n v r hnU hnd hrU hrv hsafe hfuel v2 r2 h
    rw [hasCycleUtil_succ] at h
    by_cases hr : n ∈ r
    · simp [hr] at h
    · by_cases hv : n ∈ v
      · simp only [hr, if_false, hv, if_true, Prod.mk.injEq] at h
        obtain ⟨-, hveq, -⟩ := h
        refine ⟨?_, ?_, ?_⟩
        · intro x hx; rw [← hveq]; exact hx
        · rw [← hveq]; exact hv
        · intro x hx; rw [← hveq] at hx; exact hsafe x hx
      · simp only [hr, if_false, hv] at h
        have hnd2 : (n :: r).Nodup := List.nodup_cons.mpr ⟨hr, hnd⟩
        have hrU2 : ∀ x ∈ n :: r, x ∈ idUniverse nodes edges := by
          intro x hx
          rcases List.mem_cons.mp hx with h1 | h1
          · rw [h1]; exact hnU
          · exact hrU x h1
        have hfuel2 : (idUniverse nodes edges).dedup.length + 1
            ≤ f + (n :: r).length := by
          simp only [List.length_cons]
          omega
        have foldPost : ∀ (es : List WorkflowEdge) (v0 : List Str),
            (∀ e ∈ es, e ∈ edges ∧ e.source = n) →
            (∀ x ∈ n :: r, x ∈ v0) →
            SafeV edges v0 (n :: r) →
            ∀ v3 r3,
              es.foldl (cycleFoldStep edges f) (false, v0, n :: r)
                = (false, v3, r3) →
              (∀ x ∈ v0, x ∈ v3) ∧ SafeV edges v3 (n :: r)
              ∧ (∀ e ∈ es, e.target ∈ v3 ∧ e.target ∉ n :: r) := by
          intro es
          induction es with
          | nil =>
            intro v0 _ _ hsafe0 v3 r3 hf
            simp only [List.foldl_nil, Prod.mk.injEq] at hf
            obtain ⟨-, hveq, -⟩ := hf
            rw [← hveq]
            exact ⟨fun x hx => hx, hsafe0, by simp⟩
          | cons e rest ihe =>
            intro v0 hmemE hrv0 hsafe0 v3 r3 hf
            rw [List.foldl_cons] at hf
            rcases hcall : hasCycleUtil edges f e.target v0 (n :: r)
              with ⟨b1, v1, r1⟩
            cases b1 with
            | true =>
              rw [show cycleFoldStep edges f (false, v0, n :: r) e
                  = (true, v1, r1) from by simp [cycleFoldStep, hcall]] at hf
              rw [cycleFold_true] at hf
              simp at hf
            | false =>
              rw [show cycleFoldStep edges f (false, v0, n :: r) e
                  = (false, v1, r1) from by simp [cycleFoldStep, hcall]] at hf
              have hr1 : r1 = n :: r :=
                recRestore edges f e.target v0 _ v1 r1 hcall
              have htU : e.target ∈ idUniverse nodes edges := by
                unfold idUniverse
                exact List.mem_append.mpr (Or.inr
                  (List.mem_map.mpr
                    ⟨e, (hmemE e (List.mem_cons_self _ _)).1, rfl⟩))
              obtain ⟨hmono1, htv1, hsafe1⟩ := ih e.target v0 (n :: r) htU
                hnd2 hrU2 hrv0 hsafe0 hfuel2 v1 r1 hcall
              have hf_pos : ∃ g, f = g + 1 := by
                rcases Nat.eq_zero_or_pos f with h0 | hpos
                · exfalso
                  have hle := nodup_length_le hnd2 hrU2
                  simp only [List.length_cons] at hle hfuel2
                  omega
                · exact ⟨f - 1, by omega⟩
              obtain ⟨g, hg⟩ := hf_pos
              have htnr : e.target ∉ n :: r := by
                rw [hg] at hcall
                exact false_not_mem_stack edges g e.target v0 (n :: r)
                  v1 r1 hcall
              rw [hr1] at hf
              obtain ⟨hmono2, hsafe3, htargets⟩ := ihe v1
                (fun q hq => hmemE q (List.mem_cons_of_mem e hq))
                (fun x hx => hmono1 x (hrv0 x hx))
                hsafe1 v3 r3 hf
              refine ⟨fun x hx => hmono2 x (hmono1 x hx), hsafe3, ?_⟩
              intro q hq
              rcases List.mem_cons.mp hq with h1 | h1
              · rw [h1]
                exact ⟨hmono2 _ htv1, htnr⟩
              · exact htargets q h1
        have hrv0 : ∀ x ∈ n :: r, x ∈ n :: v := by
          intro x hx
          rcases List.mem_cons.mp hx with h1 | h1
          · rw [h1]; exact List.mem_cons_self _ _
          · exact List.mem_cons_of_mem _ (hrv x h1)
        have hsafe0 : SafeV edges (n :: v) (n :: r) := by
          intro x hx hxnr
          rcases List.mem_cons.mp hx with h1 | h1
          · rw [h1] at hxnr
            exact absurd (List.mem_cons_self _ _) hxnr
          · exact hsafe x h1 (fun hxr => hxnr (List.mem_cons_of_mem _ hxr))
        rcases hfold : (edges.filter (fun e => e.source = n)).foldl
            (cycleFoldStep edges f) (false, n :: v, n :: r) with ⟨b3, v3, r3⟩
        rw [hfold] at h
        cases b3 with
        | true => simp at h
        | false =>
          simp only [Prod.mk.injEq] at h
          obtain ⟨-, hveq, -⟩ := h
          obtain ⟨hmono, hsafe3, htargets⟩ := foldPost
            (edges.filter (fun e => e.source = n)) (n :: v)
            (fun e he => by
              have hm := List.mem_filter.mp he
              exact ⟨hm.1, by simpa using hm.2⟩)
            hrv0 hsafe0 v3 r3 hfold
          have hsafeN : ¬ ReachesCycle edges n := by
            apply safe_of_children edges
            intro t hstep
            obtain ⟨e, heE, hsE, htE⟩ := hstep
            have heF : e ∈ edges.filter (fun e2 => e2.source = n) :=
              List.mem_filter.mpr ⟨heE, by simpa using hsE⟩
            have ht2 := htargets e heF
            rw [htE] at ht2
            exact hsafe3 t ht2.1 ht2.2
          rw [← hveq]
          refine ⟨?_, ?_, ?_⟩
          · intro x hx
            exact hmono x (List.mem_cons_of_mem _ hx)
          · exact hmono n (List.mem_cons_self _ _)
          · intro x hx hxr
            by_cases hxn : x = n
            · rw [hxn]
              exact hsafeN
            · exact hsafe3 x hx (by
                intro hmem2
                rcases List.mem_cons.mp hmem2 with h1 | h1
                · exact hxn h1
                · exact hxr h1)

/-- Completeness of hasCycles: a cycle reachable from some node of the node
list is detected. -/
theorem hasCycles_complete (nodes : List WorkflowNode)
    (edges : List WorkflowEdge)
    (h : ∃ nd ∈ nodes, ReachesCycle edges nd.id) :
    hasCycles nodes edges = true := by
  by_contra hfalse
  have hfalse2 : hasCycles nodes edges = false := by
    cases hval : hasCycles nodes edges
    · rfl
    · exact absurd hval hfalse
  rw [hasCycles_eq] at hfalse2
  have hfuelTop : (idUniverse nodes edges).dedup.length + 1
      ≤ (nodes.length + edges.length + 1) + ([] : List Str).length := by
    have h1 : (idUniverse nodes edges).dedup.length
        ≤ (idUniverse nodes edges).length :=
      (List.dedup_sublist _).length_le
    have h2 : (idUniverse nodes edges).length
        = nodes.length + edges.length := by
      simp [idUniverse]
    simp only [List.length_nil]
    omega
  have foldlem : ∀ (ns : List WorkflowNode) (v : List Str),
      (∀ nd ∈ ns, nd ∈ nodes) →
      SafeV edges v [] →
      ∀ vf rf,
        ns.foldl (nodesFoldStep edges (nodes.length + edges.length + 1))
          (false, v, ([] : List Str)) = (false, vf, rf) →
        (∀ x ∈ v, x ∈ vf) ∧ (∀ nd ∈ ns, nd.id ∈ vf)
        ∧ SafeV edges vf [] := by
    intro ns
    induction ns with
    | nil =>
      intro v _ hsafe vf rf hf
      simp only [List.foldl_nil, Prod.mk.injEq] at hf
      obtain ⟨-, hveq, -⟩ := hf
      rw [← hveq]
      exact ⟨fun x hx => hx, by simp, hsafe⟩
    | cons nd rest ihn =>
      intro v hmem hsafe vf rf hf
      rw [List.foldl_cons] at hf
      rcases hcall : hasCycleUtil edges (nodes.length + edges.length + 1)
          nd.id v [] with ⟨b1, v1, r1⟩
      cases b1 with
      | true =>
        rw [show nodesFoldStep edges (nodes.length + edges.length + 1)
            (false, v, []) nd = (true, v1, r1) from by
              simp [nodesFoldStep, hcall]] at hf
        rw [nodesFold_true] at hf
        simp at hf
      | false =>
        rw [show nodesFoldStep edges (nodes.length + edges.length + 1)
            (false, v, []) nd = (false, v1, r1) from by
              simp [nodesFoldStep, hcall]] at hf
        have hr1 : r1 = [] :=
          recRestore edges _ nd.id v [] v1 r1 hcall
        have hndU : nd.id ∈ idUniverse nodes edges := by
          unfold idUniverse
          exact List.mem_append.mpr (Or.inl
            (List.mem_map.mpr ⟨nd, hmem nd (List.mem_cons_self _ _), rfl⟩))
        obtain ⟨hmono, hin, hsafe1⟩ := utilFalsePost nodes edges _ nd.id v []
          hndU List.nodup_nil (by simp) (by simp) hsafe hfuelTop v1 r1 hcall
        rw [hr1] at hf
        obtain ⟨hmono2, hids, hsafeF⟩ := ihn v1
          (fun q hq => hmem q (List.mem_cons_of_mem _ hq)) hsafe1 vf rf hf
        refine ⟨fun x hx => hmono2 x (hmono x hx), ?_, hsafeF⟩
        intro q hq
        rcases List.mem_cons.mp hq with h1 | h1
        · rw [h1]
          exact hmono2 _ hin
        · exact hids q h1
  rcases hfoldTop : nodes.foldl
      (nodesFoldStep edges (nodes.length + edges.length + 1))
      (false, ([] : List Str), ([] : List Str)) with ⟨bF, vF, rF⟩
  rw [hfoldTop] at hfalse2
  cases bF with
  | true => simp at hfalse2
  | false =>
    obtain ⟨-, hids, hsafeF⟩ := foldlem nodes [] (fun _ hq => hq)
      (by intro x hx; simp at hx) vF rF hfoldTop
    obtain ⟨nd, hnd, hreach⟩ := h
    exact hsafeF nd.id (hids nd hnd) (by simp) hreach

theorem errCycles_mem_iff (wf : Workflow) :
    errCycles ∈ (validateWorkflow wf).errors
      ↔ hasCycles wf.nodes wf.edges = true := by
  obtain ⟨d1, d2, d3, d4⟩ := errDisconnected_ne wf
  obtain ⟨e1, e2, e3, e4, e5, e6⟩ := errs_distinct
  rw [mem_errors_iff]
  simp [Ne.symm e3, Ne.symm e5, Ne.symm e6, Ne.symm d4]

/-- C6: the depth-first search with a recursion-stack set is run from every
node, so the cycle error is reported for every workflow containing a
directed cycle reachable from some node via outgoing edges (in particular
A→B→A is detected even when a disconnected acyclic node C exists elsewhere
in the node list, as the concrete conjuncts show), and no cycle error is
reported for any workflow whose edges admit no directed cycle at all. -/
theorem C6_cycle_detection :
    (∀ wf : Workflow, (∃ nd ∈ wf.nodes, ReachesCycle wf.edges nd.id) →
        errCycles ∈ (validateWorkflow wf).errors)
    ∧ (∀ wf : Workflow,
        (¬ ∃ c, Relation.TransGen (edgeStep wf.edges) c c) →
        errCycles ∉ (validateWorkflow wf).errors)
    ∧ hasCycles cycleNodes cycleEdges = true
    ∧ errCycles
        ∈ (validateWorkflow ⟨"w".data, cycleNodes, cycleEdges⟩).errors := by
  refine ⟨?_, ?_, rfl, (errCycles_mem_iff _).mpr rfl⟩
  · intro wf hcyc
    exact (errCycles_mem_iff wf).mpr (hasCycles_complete wf.nodes wf.edges hcyc)
  · intro wf hnocyc hmem
    exact hnocyc (hasCycles_sound wf.nodes wf.edges
      ((errCycles_mem_iff wf).mp hmem))

/-- C6 witness: the theorem applied to the concrete cyclic workflow (with
its disconnected acyclic third node) and to a concrete acyclic workflow. -/
theorem C6_cycle_detection_witness :
    errCycles
      ∈ (validateWorkflow ⟨"w".data, cycleNodes, cycleEdges⟩).errors
    ∧ errCycles
      ∉ (validateWorkflow ⟨"w".data, [bareNode "A".data], []⟩).errors := by
  constructor
  · apply C6_cycle_detection.1
    refine ⟨bareNode "A".data, List.mem_cons_self _ _, ?_⟩
    have eAB : edgeStep cycleEdges "A".data "B".data :=
      ⟨⟨"A".data, "B".data⟩, by simp [cycleEdges], rfl, rfl⟩
    have eBA : edgeStep cycleEdges "B".data "A".data :=
      ⟨⟨"B".data, "A".data⟩, by simp [cycleEdges], rfl, rfl⟩
    exact ⟨"A".data, Relation.ReflTransGen.refl,
      Relation.TransGen.head eAB (Relation.TransGen.single eBA)⟩
  · apply C6_cycle_detection.2.1
    rintro ⟨c, hc⟩
    obtain ⟨t, ⟨e, he, -⟩, -⟩ := Relation.TransGen.head'_iff.mp hc
    exact absurd he (List.not_mem_nil e)

end LlmSuite
